import Mathlib

set_option maxHeartbeats 1000000

/- Verification of the darbot-gemini-cli core utilities.

   Part 1 models src/packages/core/src/utils/pathNormalizer.ts.
   JavaScript strings are modelled as lists of characters (`JStr`).
   The platform is POSIX (Linux), so the Node `path` module imported by
   pathNormalizer.ts is the posix implementation: `path.normalize` treats
   only the forward slash as a separator and the backslash as an ordinary
   character. -/

abbrev JStr := List Char

/-- Model of Node `path.posix.normalize`'s segment splitting: split a
character list at every forward slash. -/
def splitSlash : JStr → List JStr
  | [] => [[]]
  | c :: cs =>
    if c = '/' then [] :: splitSlash cs
    else
      match splitSlash cs with
      | [] => [[c]]
      | s :: rest => (c :: s) :: rest

/-- The `..` segment. -/
def ddSeg : JStr := ['.', '.']

/-- One step of Node's `normalizeString` segment resolution, with the
accumulator kept in reverse order.  A `..` segment pops the previous
ordinary segment; when nothing can be popped it is kept only for relative
paths (`allowAbove = true`) and dropped for absolute ones. -/
def normStep (allowAbove : Bool) (acc : List JStr) (s : JStr) : List JStr :=
  if s = ddSeg then
    match acc with
    | [] => if allowAbove then [s] else []
    | t :: rest => if t = ddSeg then (if allowAbove then s :: acc else acc) else rest
  else s :: acc

/-- Resolve `.`/`..` segments the way Node's `normalizeString` does. -/
def normSegs (allowAbove : Bool) (segs : List JStr) : List JStr :=
  (segs.foldl (normStep allowAbove) []).reverse

/-- Join segments with forward slashes (Node's `normalizeString` result
string). -/
def joinSegs : List JStr → JStr
  | [] => []
  | [s] => s
  | s :: rest => s ++ '/' :: joinSegs rest

/-- Keep a raw segment: Node drops empty segments and `.` segments. -/
def keepSeg (s : JStr) : Bool := !s.isEmpty && !(s = ['.'])

/-- Model of Node `path.isAbsolute` on POSIX: starts with a slash. -/
def jsIsAbsolute (p : JStr) : Bool := p.head? = some '/'

/-- Whether the input ends with a slash (`trailingSeparator` in Node's
`posix.normalize`). -/
def hasTrailSlash (p : JStr) : Bool := p.getLast? = some '/'

/-- The resolved segment list of Node's `normalizeString`: split on slashes,
drop empty and `.` segments, then resolve `..` segments (which may climb
above the start only for relative paths). -/
def pnSegs (p : JStr) : List JStr :=
  normSegs (!jsIsAbsolute p) ((splitSlash p).filter keepSeg)

/-- The result string of Node's `normalizeString`. -/
def pnBody (p : JStr) : JStr := joinSegs (pnSegs p)

/-- Model of Node `path.posix.normalize`: empty input gives `.`; an empty
resolved body gives `/`, `./` or `.` depending on absoluteness and the
trailing separator; otherwise the body, with the leading slash restored for
absolute paths and the trailing separator re-appended. -/
def posixNormalize (p : JStr) : JStr :=
  if p = [] then ['.']
  else if pnBody p = [] then
    if jsIsAbsolute p then ['/']
    else if hasTrailSlash p then ['.', '/'] else ['.']
  else if jsIsAbsolute p then
    '/' :: (pnBody p ++ (if hasTrailSlash p then ['/'] else []))
  else
    pnBody p ++ (if hasTrailSlash p then ['/'] else [])

/-- Model of `path.replace(/\\/g, '/')` in `PathNormalizer.normalize`. -/
def replaceBackslashes (l : JStr) : JStr :=
  l.map (fun c => if c = '\\' then '/' else c)

/-- Model of the trailing-slash removal in `PathNormalizer.normalize`:
`if (normalized.length > 1 && normalized.endsWith('/')) slice(0, -1)`. -/
def stripTrail (l : JStr) : JStr :=
  if l.length > 1 ∧ l.getLast? = some '/' then l.dropLast else l

/-- Model of `PathNormalizer.normalize` (pathNormalizer.ts lines 22-37):
empty input short-circuits to the empty string; otherwise Node's
normalize runs first, then backslashes are replaced by forward slashes,
then a trailing slash is removed from results longer than one character. -/
def jsNormalize (p : JStr) : JStr :=
  if p = [] then []
  else stripTrail (replaceBackslashes (posixNormalize p))

/-- Prefix test on character lists. -/
def prefixOfJ : JStr → JStr → Bool
  | [], _ => true
  | _ :: _, [] => false
  | a :: as, b :: bs => a = b && prefixOfJ as bs

/-- Substring test, modelling JavaScript `String.prototype.includes`. -/
def jsIncludes : JStr → JStr → Bool
  | [], sub => sub.isEmpty
  | c :: t, sub => prefixOfJ sub (c :: t) || jsIncludes t sub

/-- Model of `PathNormalizer.isSafe` (pathNormalizer.ts lines 140-155):
normalize, then reject when the result contains `../` or `..\`; the
absolute-path branch and the fall-through both return `true`. -/
def isSafe (p : JStr) : Bool :=
  let n := jsNormalize p
  if jsIncludes n ['.', '.', '/'] || jsIncludes n ['.', '.', '\\'] then false
  else if jsIsAbsolute n then true
  else true

/-- A segment list free of `..` segments. -/
def NoDD (l : List JStr) : Prop := ∀ s ∈ l, s ≠ ddSeg

/-- A segment list in the shape `normSegs` produces: a leading run of `..`
segments (present only for relative paths) followed by ordinary segments. -/
def Reduced (a : Bool) (l : List JStr) : Prop :=
  ∃ k rest, l = List.replicate k ddSeg ++ rest ∧ NoDD rest ∧ (a = false → k = 0)

/-- Accumulator invariant for the `normSegs` fold (accumulator is in reverse
order, so the `..` run sits at its tail). -/
def AccOK (a : Bool) (acc : List JStr) : Prop :=
  ∃ other dots, acc = other ++ dots ∧ NoDD other ∧ (∀ s ∈ dots, s = ddSeg)
    ∧ (a = false → dots = [])

/-- Shorthand for the well-formedness of resolved segments: nonempty,
slash-free, and not the `.` segment. -/
def GoodSegs (l : List JStr) : Prop := ∀ s ∈ l, s ≠ [] ∧ '/' ∉ s ∧ s ≠ ['.']

/- Part 2 models the Tree Builder of the spec (getFolderStructure).
   The implementation file is not among the visible sources (only its test
   suite src/packages/core/src/utils/getFolderStructure.test.ts is), so the
   definitions below are modelled from the spec, sections 3, 4.2, 4.3, 6-8.
   Paths and rendered text use Lean strings; the platform separator is the
   forward slash. -/

/-- Modelled from the spec: missing source getFolderStructure.ts.  A
filesystem subtree as seen by the Entry Reader; a directory whose children
are `none` cannot be listed (`NotReadable`). -/
inductive FSTree where
  | file (name : String)
  | dir (name : String) (children : Option (List FSTree))

/-- Modelled from the spec: kind tag of one rendered output line.
`dir true` is an excluded directory line (rendered `name/...`),
`placeholder` a bare `...` budget line. -/
inductive LineKind where
  | file
  | dir (excluded : Bool)
  | placeholder
deriving DecidableEq

/-- Modelled from the spec (§3 RenderLine): one rendered line of the body. -/
structure RLine where
  kind : LineKind
  text : String
deriving DecidableEq

/-- Modelled from the spec (§3 TraversalState): the state threaded through
the whole walk. -/
structure TState where
  remainingBudget : Nat
  truncationOccurred : Bool
deriving DecidableEq

/-- Modelled from the spec (§3 Options, §6): Tree Builder configuration with
defaults; the file pattern and the gitignore-aware ignore policy are
external capabilities modelled as boolean-valued predicates. -/
structure FolderOptions where
  maxItems : Nat := 200
  ignoredFolders : List String := ["node_modules", ".git"]
  fileIncludePattern : Option (String → Bool) := none
  ignorePolicy : Option (String → Bool) := none
  respectGitIgnore : Bool := true

/-- Path concatenation with the POSIX separator. -/
def joinPath (a b : String) : String := a ++ "/" ++ b

/-- Modelled from the spec (§4.2): the Ignore Oracle for a directory — the
static denylist on the bare name always applies; otherwise the
gitignore-aware policy applies to the path when `respectGitIgnore` is set
and a policy capability is supplied. -/
def isExcludedDir (opts : FolderOptions) (path name : String) : Bool :=
  opts.ignoredFolders.contains name
    || (opts.respectGitIgnore
        && (match opts.ignorePolicy with
            | some pol => pol path
            | none => false))

/-- Modelled from the spec (§4.2): the Ignore Oracle for a file — only the
gitignore-aware policy applies, never the static denylist. -/
def isExcludedFile (opts : FolderOptions) (path : String) : Bool :=
  opts.respectGitIgnore
    && (match opts.ignorePolicy with
        | some pol => pol path
        | none => false)

/-- Name of an entry. -/
def entryName : FSTree → String
  | .file n => n
  | .dir n _ => n

/-- Whether an entry is a file. -/
def isFileE : FSTree → Bool
  | .file _ => true
  | .dir _ _ => false

/-- Modelled from the spec (§4.3 Filtering): a file is kept when it matches
`fileIncludePattern` (if set) and is not excluded by the Ignore Oracle;
directories are always kept at this stage. -/
def keepEntry (opts : FolderOptions) (path : String) : FSTree → Bool
  | .file n =>
    (match opts.fileIncludePattern with
     | some pat => pat n
     | none => true)
    && !isExcludedFile opts (joinPath path n)
  | .dir _ _ => true

/-- Modelled from the spec (§4.3 Filtering): drop filtered-out entries. -/
def filterEntries (opts : FolderOptions) (path : String)
    (ts : List FSTree) : List FSTree :=
  ts.filter (keepEntry opts path)

/-- Byte/code-point lexicographic not-greater test on character lists. -/
def lexLe : List Char → List Char → Bool
  | [], _ => true
  | _ :: _, [] => false
  | a :: as, b :: bs =>
    if a.toNat < b.toNat then true
    else if b.toNat < a.toNat then false
    else lexLe as bs

/-- Name order between entries. -/
def nameLe (a b : FSTree) : Bool := lexLe (entryName a).data (entryName b).data

/-- Insertion into a sorted list under `nameLe`. -/
def insertSorted (x : FSTree) : List FSTree → List FSTree
  | [] => [x]
  | y :: ys => if nameLe x y then x :: y :: ys else y :: insertSorted x ys

/-- Insertion sort under `nameLe`. -/
def sortByName : List FSTree → List FSTree
  | [] => []
  | x :: xs => insertSorted x (sortByName xs)

/-- Modelled from the spec (§4.3 Ordering): files first, then directories,
each partition sorted independently by byte order of names. -/
def orderEntries (ts : List FSTree) : List FSTree :=
  sortByName (ts.filter isFileE) ++ sortByName (ts.filter (fun t => !isFileE t))

mutual

/-- Size of a subtree; a directory with readable children weighs its child
list plus two, so that an ordered, filtered child list is strictly
smaller. -/
def tsize : FSTree → Nat
  | .file _ => 1
  | .dir _ none => 1
  | .dir _ (some cs) => 2 + ltsize cs

/-- Size of a list of subtrees. -/
def ltsize : List FSTree → Nat
  | [] => 0
  | t :: ts => 1 + tsize t + ltsize ts

end

/-- Modelled from the spec (§4.3 Indentation): the branch glyph of an entry
line. -/
def connector (isLast : Bool) : String :=
  if isLast then ("└───") else ("├───")

/-- Modelled from the spec (§4.3 step 1-2): the decision recorded for one
entry of a sibling list during the budget pass, before any descent. -/
inductive Slot where
  | placeholder (isLast : Bool)
  | file (name : String) (isLast : Bool)
  | dir (name : String) (excluded : Bool) (isLast : Bool)
      (children : Option (List FSTree))

/-- Modelled from the spec (§4.3 step 1): one placeholder slot per remaining
sibling once the budget is exhausted. -/
def mkPlaceholders : List FSTree → List Slot
  | [] => []
  | _ :: rest => Slot.placeholder rest.isEmpty :: mkPlaceholders rest

/-- Modelled from the spec (§4.3 steps 1-2): the budget pass over one
ordered, filtered sibling list.  Each rendered entry consumes one budget
unit; once the budget hits zero, every remaining sibling becomes a bare
placeholder and truncation is recorded; an excluded directory records
truncation and is marked so the descent pass will not enter it. -/
def renderSlots (opts : FolderOptions) (path : String) :
    List FSTree → TState → List Slot × TState
  | [], st => ([], st)
  | e :: rest, st =>
    if st.remainingBudget = 0 then
      (mkPlaceholders (e :: rest), { st with truncationOccurred := true })
    else
      let st1 : TState := { st with remainingBudget := st.remainingBudget - 1 }
      match e with
      | .file n =>
        let r := renderSlots opts path rest st1
        (Slot.file n rest.isEmpty :: r.1, r.2)
      | .dir n cs =>
        if isExcludedDir opts (joinPath path n) n then
          let r := renderSlots opts path rest
            { st1 with truncationOccurred := true }
          (Slot.dir n true rest.isEmpty cs :: r.1, r.2)
        else
          let r := renderSlots opts path rest st1
          (Slot.dir n false rest.isEmpty cs :: r.1, r.2)

/-- Size of a slot, mirroring `tsize`. -/
def slotSize : Slot → Nat
  | .dir _ _ _ (some cs) => 2 + ltsize cs
  | _ => 1

/-- Size of a slot list, mirroring `ltsize`. -/
def slotsSize : List Slot → Nat
  | [] => 0
  | s :: ss => 1 + slotSize s + slotsSize ss

/- Size lemmas for termination of the traversal. -/

theorem tsize_pos (t : FSTree) : 1 ≤ tsize t := by
  cases t with
  | file n => simp [tsize]
  | dir n cs =>
    cases cs with
    | none => simp [tsize]
    | some cs =>
      simp only [tsize]
      omega

theorem ltsize_insertSorted (x : FSTree) (l : List FSTree) :
    ltsize (insertSorted x l) = 1 + tsize x + ltsize l := by
  induction l with
  | nil => rfl
  | cons y ys ih =>
    simp only [insertSorted]
    split
    · rfl
    · simp only [ltsize, ih]
      omega

theorem ltsize_sortByName (l : List FSTree) : ltsize (sortByName l) = ltsize l := by
  induction l with
  | nil => rfl
  | cons x xs ih =>
    simp only [sortByName, ltsize_insertSorted, ih, ltsize]

theorem ltsize_append (a b : List FSTree) :
    ltsize (a ++ b) = ltsize a + ltsize b := by
  induction a with
  | nil => simp [ltsize]
  | cons t ts ih =>
    simp only [List.cons_append, List.append_eq, ltsize, ih]
    omega

theorem ltsize_filter (p : FSTree → Bool) (l : List FSTree) :
    ltsize (l.filter p) ≤ ltsize l := by
  induction l with
  | nil => simp [ltsize]
  | cons t ts ih =>
    simp only [List.filter_cons]
    split
    · simp only [ltsize]
      omega
    · simp only [ltsize]
      have := tsize_pos t
      omega

theorem ltsize_filter_partition (p : FSTree → Bool) (l : List FSTree) :
    ltsize (l.filter p) + ltsize (l.filter (fun t => !p t)) = ltsize l := by
  induction l with
  | nil => rfl
  | cons t ts ih =>
    cases hp : p t with
    | true =>
      rw [List.filter_cons, List.filter_cons, if_pos hp,
        if_neg (by simp [hp])]
      simp only [ltsize]
      omega
    | false =>
      rw [List.filter_cons, List.filter_cons, if_neg (by simp [hp]),
        if_pos (by simp [hp])]
      simp only [ltsize]
      omega

theorem ltsize_orderEntries (l : List FSTree) :
    ltsize (orderEntries l) = ltsize l := by
  unfold orderEntries
  rw [ltsize_append, ltsize_sortByName, ltsize_sortByName,
    ltsize_filter_partition]

theorem slotsSize_mkPlaceholders (l : List FSTree) :
    slotsSize (mkPlaceholders l) ≤ ltsize l := by
  induction l with
  | nil => simp [mkPlaceholders, slotsSize, ltsize]
  | cons t ts ih =>
    simp only [mkPlaceholders, slotsSize, slotSize, ltsize]
    have := tsize_pos t
    omega

theorem slotsSize_renderSlots (opts : FolderOptions) (path : String)
    (es : List FSTree) :
    ∀ st, slotsSize (renderSlots opts path es st).1 ≤ ltsize es := by
  induction es with
  | nil => intro st; simp [renderSlots, slotsSize, ltsize]
  | cons e rest ih =>
    intro st
    cases e with
    | file n =>
      simp only [renderSlots]
      split
      · exact slotsSize_mkPlaceholders _
      · simp only [slotsSize, slotSize, ltsize, tsize]
        exact Nat.add_le_add_left (ih _) _
    | dir n cs =>
      cases cs with
      | none =>
        simp only [renderSlots]
        split
        · exact slotsSize_mkPlaceholders _
        · split
          · simp only [slotsSize, slotSize, ltsize, tsize]
            exact Nat.add_le_add_left (ih _) _
          · simp only [slotsSize, slotSize, ltsize, tsize]
            exact Nat.add_le_add_left (ih _) _
      | some cs =>
        simp only [renderSlots]
        split
        · exact slotsSize_mkPlaceholders _
        · split
          · simp only [slotsSize, slotSize, ltsize, tsize]
            exact Nat.add_le_add_left (ih _) _
          · simp only [slotsSize, slotSize, ltsize, tsize]
            exact Nat.add_le_add_left (ih _) _

theorem renderSlots_slotsSize_lt (opts : FolderOptions) (path : String)
    (es : List FSTree) (st : TState) :
    slotsSize (renderSlots opts path es st).1 < 1 + ltsize es := by
  have := slotsSize_renderSlots opts path es st
  omega

theorem orderFilter_measure_lt (opts : FolderOptions) (p : String)
    (cs : List FSTree) (k : Nat) :
    1 + ltsize (orderEntries (filterEntries opts p cs)) < 1 + (2 + ltsize cs) + k := by
  have h1 : ltsize (orderEntries (filterEntries opts p cs)) ≤ ltsize cs := by
    rw [ltsize_orderEntries]
    exact ltsize_filter _ _
  omega

mutual

/-- Modelled from the spec (§4.3): process one directory's ordered and
filtered entry list: first the budget pass over the whole sibling list,
then the descent pass, sharing one traversal state. -/
def processDir (opts : FolderOptions) (path pre : String)
    (entries : List FSTree) (st : TState) : List RLine × TState :=
  let r := renderSlots opts path entries st
  descendSlots opts path pre r.1 r.2
termination_by 1 + ltsize entries
decreasing_by
  exact renderSlots_slotsSize_lt opts path entries st

/-- Modelled from the spec (§4.3 steps 2-3, Indentation): emit each recorded
line; an excluded directory gets the inline `name/...` marker and is never
entered; a non-excluded readable directory is entered only when budget
remains, its children being filtered, ordered and processed with the shared
state; when the budget is already zero the descent is skipped silently. -/
def descendSlots (opts : FolderOptions) (path pre : String) :
    List Slot → TState → List RLine × TState
  | [], st => ([], st)
  | Slot.placeholder isLast :: ss, st =>
    let r := descendSlots opts path pre ss st
    (⟨LineKind.placeholder, pre ++ connector isLast ++ "..."⟩ :: r.1, r.2)
  | Slot.file n isLast :: ss, st =>
    let r := descendSlots opts path pre ss st
    (⟨LineKind.file, pre ++ connector isLast ++ n⟩ :: r.1, r.2)
  | Slot.dir n true isLast _ :: ss, st =>
    let r := descendSlots opts path pre ss st
    (⟨LineKind.dir true, pre ++ connector isLast ++ n ++ "/..."⟩ :: r.1, r.2)
  | Slot.dir n false isLast none :: ss, st =>
    let r := descendSlots opts path pre ss st
    (⟨LineKind.dir false, pre ++ connector isLast ++ n ++ "/"⟩ :: r.1, r.2)
  | Slot.dir n false isLast (some cs) :: ss, st =>
    if st.remainingBudget = 0 then
      let r := descendSlots opts path pre ss st
      (⟨LineKind.dir false, pre ++ connector isLast ++ n ++ "/"⟩ :: r.1, r.2)
    else
      let rc := processDir opts (joinPath path n)
        (pre ++ (if isLast then ("    ") else ("│   ")))
        (orderEntries (filterEntries opts (joinPath path n) cs)) st
      let r := descendSlots opts path pre ss rc.2
      (⟨LineKind.dir false, pre ++ connector isLast ++ n ++ "/"⟩ :: (rc.1 ++ r.1), r.2)
termination_by ss st => slotsSize ss
decreasing_by
  all_goals simp only [slotsSize, slotSize]
  all_goals try omega
  exact orderFilter_measure_lt opts (joinPath path n) cs (slotsSize ss)

end

/-- Modelled from the spec (§4.3 step 1): the rendered placeholder lines for
a run of omitted siblings, one line per sibling, with ordinary last/not-last
connectors. -/
def placeholderLines (pre : String) : List FSTree → List RLine
  | [] => []
  | _ :: rest =>
    ⟨LineKind.placeholder, pre ++ connector rest.isEmpty ++ "..."⟩
      :: placeholderLines pre rest

/-- A name-bearing entry line (file or directory, excluded or not), as
opposed to a bare placeholder line. -/
def isEntryLine (l : RLine) : Bool :=
  match l.kind with
  | LineKind.placeholder => false
  | _ => true

/-- Number of name-bearing entry lines. -/
def countEntryLines (ls : List RLine) : Nat := (ls.filter isEntryLine).length

/-- A truncation marker in the body: a bare placeholder line or an inline
`name/...` excluded-directory line. -/
def isMarkerLine (l : RLine) : Bool :=
  match l.kind with
  | LineKind.placeholder => true
  | LineKind.dir true => true
  | _ => false

/-- Whether the body contains a truncation marker. -/
def hasMarker (ls : List RLine) : Bool := ls.any isMarkerLine

/-- Slot counterpart of `isEntryLine`. -/
def isEntrySlot (s : Slot) : Bool :=
  match s with
  | Slot.placeholder _ => false
  | _ => true

/-- Number of entry slots. -/
def countEntrySlots (ss : List Slot) : Nat := (ss.filter isEntrySlot).length

/-- Slot counterpart of `isMarkerLine`. -/
def isMarkerSlot (s : Slot) : Bool :=
  match s with
  | Slot.placeholder _ => true
  | Slot.dir _ true _ _ => true
  | _ => false

/-- Whether a slot list contains a truncation marker. -/
def hasMarkerSlot (ss : List Slot) : Bool := ss.any isMarkerSlot

/-- Modelled from the spec (§6): the extra header clause shown when
truncation occurred. -/
def truncClause (maxItems : Nat) : String :=
  " Folders or files indicated with ... contain more items not shown, were ignored, or the display limit ("
    ++ toString maxItems ++ " items) was reached."

/-- Modelled from the spec (§6): the summary line, with the extra clause
appended exactly when truncation occurred. -/
def headerLine (opts : FolderOptions) (truncation : Bool) : String :=
  "Showing up to " ++ toString opts.maxItems ++ " items (files + folders)."
    ++ (if truncation then truncClause opts.maxItems else (""))

/-- Rendered body text: one line per rendered entry or placeholder. -/
def renderBody (ls : List RLine) : String :=
  String.join (ls.map (fun l => l.text ++ "\n"))

/-- Modelled from the spec (§4.3, §6): the full result of one build — the
output text plus the structured body lines and the final truncation flag
it was assembled from. -/
structure BuildResult where
  outText : String
  lines : List RLine
  truncation : Bool

/-- Modelled from the spec (§4.3 Header and framing, §6, §7): `build`'s
result.  A root that cannot be read collapses the whole output to the
single error line; otherwise the root's entries are filtered, ordered and
processed with a fresh traversal state whose budget is `maxItems`, and the
output is the blank line, the summary line (with the extra clause exactly
when truncation occurred), a blank line, the root path with the separator,
and the body. -/
def buildFull (rootPath : String) (fs : Option (List FSTree))
    (opts : FolderOptions) : BuildResult :=
  match fs with
  | none =>
    { outText := "Error: Could not read directory \"" ++ rootPath
        ++ "\". Check path and permissions."
      lines := []
      truncation := false }
  | some cs =>
    let r := processDir opts rootPath ("")
      (orderEntries (filterEntries opts rootPath cs))
      ⟨opts.maxItems, false⟩
    { outText := "\n" ++ headerLine opts r.2.truncationOccurred ++ "\n\n"
        ++ rootPath ++ "/" ++ "\n" ++ renderBody r.1
      lines := r.1
      truncation := r.2.truncationOccurred }

/-- Modelled from the spec (§6): the public entry point returns the output
string. -/
def build (rootPath : String) (fs : Option (List FSTree))
    (opts : FolderOptions) : String :=
  (buildFull rootPath fs opts).outText

/- Sanity examples: the pathNormalizer model against the values the
   repository's tests expect. -/

example : jsNormalize ("foo/bar".data) = ("foo/bar".data) := by decide
example : jsNormalize ("foo\\bar".data) = ("foo/bar".data) := by decide
example : jsNormalize ("foo//bar".data) = ("foo/bar".data) := by decide
example : jsNormalize ("".data) = ("".data) := by decide
example : jsNormalize (".".data) = (".".data) := by decide
example : jsNormalize ("..".data) = ("..".data) := by decide
example : jsNormalize ("foo/bar/".data) = ("foo/bar".data) := by decide
example : jsNormalize ("foo/bar//".data) = ("foo/bar".data) := by decide
example : jsNormalize ("/".data) = ("/".data) := by decide
example : jsNormalize ("foo/../bar".data) = ("bar".data) := by decide
example : jsNormalize ("foo/./bar".data) = ("foo/bar".data) := by decide
example : jsNormalize ("./foo/bar".data) = ("foo/bar".data) := by decide
example : jsNormalize ("C:\\Users\\test".data) = ("C:/Users/test".data) := by decide
example : jsNormalize ("\\".data) = ("/".data) := by decide
example : jsNormalize ("///".data) = ("/".data) := by decide
example : jsNormalize ("foo\\bar/baz\\qux".data) = ("foo/bar/baz/qux".data) := by decide
example : isSafe ("foo/bar".data) = true := by decide
example : isSafe ("/absolute/path".data) = true := by decide
example : isSafe ("./relative/path".data) = true := by decide
example : isSafe ("../../../etc/passwd".data) = false := by decide
example : isSafe ("foo/../../../etc".data) = false := by decide
example : isSafe ("foo\\..\\..\\etc".data) = false := by decide
example : jsNormalize ("a\\/".data) = ("a/".data) := by decide
example : jsNormalize ("a/".data) = ("a".data) := by decide

/- Basic lemmas about the pathNormalizer model. -/

theorem mem_of_prefixOfJ {sub l : JStr} (h : prefixOfJ sub l = true) :
    ∀ c ∈ sub, c ∈ l := by
  induction sub generalizing l with
  | nil => intro c hc; cases hc
  | cons a as ih =>
    cases l with
    | nil => simp [prefixOfJ] at h
    | cons b bs =>
      simp only [prefixOfJ, Bool.and_eq_true, decide_eq_true_eq] at h
      intro c hc
      rcases List.mem_cons.mp hc with rfl | hc
      · exact h.1 ▸ List.mem_cons_self _ _
      · exact List.mem_cons_of_mem _ (ih h.2 c hc)

theorem mem_of_jsIncludes {l sub : JStr} (h : jsIncludes l sub = true) :
    ∀ c ∈ sub, c ∈ l := by
  induction l with
  | nil =>
    simp only [jsIncludes, List.isEmpty_iff] at h
    subst h; intro c hc; cases hc
  | cons a t ih =>
    simp only [jsIncludes, Bool.or_eq_true] at h
    rcases h with h | h
    · exact mem_of_prefixOfJ h
    · intro c hc; exact List.mem_cons_of_mem _ (ih h c hc)

theorem backslash_not_mem_replaceBackslashes (l : JStr) :
    '\\' ∉ replaceBackslashes l := by
  intro h
  simp only [replaceBackslashes, List.mem_map] at h
  obtain ⟨a, _, ha⟩ := h
  by_cases hab : a = '\\'
  · simp [hab] at ha
  · rw [if_neg hab] at ha; exact hab ha

theorem mem_stripTrail {c : Char} {l : JStr} (h : c ∈ stripTrail l) : c ∈ l := by
  unfold stripTrail at h
  split at h
  · exact (List.dropLast_sublist l).mem h
  · exact h

/-- Claim helper: the result of `PathNormalizer.normalize` never contains a
backslash, because every backslash is replaced by a forward slash after
Node's normalization. -/
theorem backslash_not_mem_jsNormalize (p : JStr) : '\\' ∉ jsNormalize p := by
  unfold jsNormalize
  split
  · intro h; cases h
  · intro h
    exact backslash_not_mem_replaceBackslashes _ (mem_stripTrail h)

/- Lemmas about splitSlash. -/

theorem splitSlash_ne_nil (p : JStr) : splitSlash p ≠ [] := by
  cases p with
  | nil => simp [splitSlash]
  | cons c cs =>
    simp only [splitSlash]
    split
    · simp
    · split <;> simp

theorem slash_not_mem_of_mem_splitSlash {p s : JStr} (h : s ∈ splitSlash p) :
    '/' ∉ s := by
  induction p generalizing s with
  | nil =>
    simp only [splitSlash, List.mem_singleton] at h
    subst h; simp
  | cons c cs ih =>
    simp only [splitSlash] at h
    by_cases hc : c = '/'
    · rw [if_pos hc] at h
      rcases List.mem_cons.mp h with rfl | h
      · simp
      · exact ih h
    · rw [if_neg hc] at h
      cases hsp : splitSlash cs with
      | nil => exact absurd hsp (splitSlash_ne_nil cs)
      | cons s0 rest =>
        rw [hsp] at h
        rcases List.mem_cons.mp h with rfl | h
        · intro hmem
          rcases List.mem_cons.mp hmem with h1 | h1
          · exact hc h1.symm
          · exact ih (by rw [hsp]; exact List.mem_cons_self s0 rest) h1
        · exact ih (by rw [hsp]; exact List.mem_cons_of_mem _ h)

theorem mem_of_mem_splitSlash {p s : JStr} {c : Char} (hs : s ∈ splitSlash p)
    (hc : c ∈ s) : c ∈ p := by
  induction p generalizing s with
  | nil =>
    simp only [splitSlash, List.mem_singleton] at hs
    subst hs; cases hc
  | cons a cs ih =>
    simp only [splitSlash] at hs
    by_cases ha : a = '/'
    · rw [if_pos ha] at hs
      rcases List.mem_cons.mp hs with rfl | hs
      · cases hc
      · exact List.mem_cons_of_mem _ (ih hs hc)
    · rw [if_neg ha] at hs
      cases hsp : splitSlash cs with
      | nil => exact absurd hsp (splitSlash_ne_nil cs)
      | cons s0 rest =>
        rw [hsp] at hs
        rcases List.mem_cons.mp hs with rfl | hs
        · rcases List.mem_cons.mp hc with rfl | h1
          · exact List.mem_cons_self _ _
          · exact List.mem_cons_of_mem _
              (ih (by rw [hsp]; exact List.mem_cons_self s0 rest) h1)
        · exact List.mem_cons_of_mem _
            (ih (by rw [hsp]; exact List.mem_cons_of_mem _ hs) hc)

theorem splitSlash_no_slash {s : JStr} (h : '/' ∉ s) : splitSlash s = [s] := by
  induction s with
  | nil => rfl
  | cons c cs ih =>
    have hc : c ≠ '/' := fun e => h (e ▸ List.mem_cons_self c cs)
    have hcs : '/' ∉ cs := fun m => h (List.mem_cons_of_mem _ m)
    simp only [splitSlash, if_neg hc, ih hcs]

theorem splitSlash_append {s t : JStr} (h : '/' ∉ s) :
    splitSlash (s ++ '/' :: t) = s :: splitSlash t := by
  induction s with
  | nil =>
    simp [splitSlash]
  | cons c cs ih =>
    have hc : c ≠ '/' := fun e => h (e ▸ List.mem_cons_self c cs)
    have hcs : '/' ∉ cs := fun m => h (List.mem_cons_of_mem _ m)
    simp only [List.cons_append, splitSlash, if_neg hc, List.append_eq, ih hcs]

/- Lemmas about joinSegs. -/

theorem joinSegs_ne_nil {l : List JStr} (hl : l ≠ [])
    (h : ∀ s ∈ l, s ≠ []) : joinSegs l ≠ [] := by
  cases l with
  | nil => exact absurd rfl hl
  | cons s rest =>
    cases rest with
    | nil => simpa [joinSegs] using h s (by simp)
    | cons x xs =>
      simp only [joinSegs]
      intro he
      rcases List.append_eq_nil.mp he with ⟨-, h2⟩
      cases h2

theorem head?_joinSegs {s : JStr} {rest : List JStr} (hs : s ≠ []) :
    (joinSegs (s :: rest)).head? = s.head? := by
  cases rest with
  | nil => rfl
  | cons x xs =>
    cases s with
    | nil => exact absurd rfl hs
    | cons a as => simp [joinSegs]

theorem getLast?_joinSegs {l : List JStr} (hl : l ≠ [])
    (h : ∀ s ∈ l, s ≠ [] ∧ '/' ∉ s) :
    ∃ c, (joinSegs l).getLast? = some c ∧ c ≠ '/' := by
  induction l with
  | nil => exact absurd rfl hl
  | cons s rest ih =>
    cases rest with
    | nil =>
      obtain ⟨hs, hsl⟩ := h s (by simp)
      obtain ⟨c, hc⟩ := Option.isSome_iff_exists.mp
        (by rw [List.getLast?_isSome]; exact hs)
      refine ⟨c, hc, fun e => ?_⟩
      subst e
      exact hsl (List.mem_of_getLast?_eq_some hc)
    | cons x xs =>
      obtain ⟨c, hc, hcn⟩ := ih (by simp)
        (fun t ht => h t (List.mem_cons_of_mem _ ht))
      refine ⟨c, ?_, hcn⟩
      show (s ++ '/' :: joinSegs (x :: xs)).getLast? = some c
      rw [List.getLast?_append]
      rw [show ('/' :: joinSegs (x :: xs)) = ['/'] ++ joinSegs (x :: xs) from rfl]
      rw [List.getLast?_append, hc]
      rfl

theorem splitSlash_joinSegs {l : List JStr} (hl : l ≠ [])
    (h : ∀ s ∈ l, s ≠ [] ∧ '/' ∉ s) :
    splitSlash (joinSegs l) = l := by
  induction l with
  | nil => exact absurd rfl hl
  | cons s rest ih =>
    cases rest with
    | nil => exact splitSlash_no_slash (h s (by simp)).2
    | cons x xs =>
      show splitSlash (s ++ '/' :: joinSegs (x :: xs)) = _
      rw [splitSlash_append (h s (by simp)).2,
        ih (by simp) (fun t ht => h t (List.mem_cons_of_mem _ ht))]

/- Lemmas about normStep and normSegs. -/

theorem mem_normStep {a : Bool} {acc : List JStr} {s t : JStr}
    (h : t ∈ normStep a acc s) : t = s ∨ t ∈ acc := by
  unfold normStep at h
  split at h
  · split at h
    · split at h
      · simp only [List.mem_singleton] at h; exact Or.inl h
      · cases h
    · rename_i u rest
      split at h
      · split at h
        · rcases List.mem_cons.mp h with rfl | h
          · exact Or.inl rfl
          · exact Or.inr h
        · exact Or.inr h
      · exact Or.inr (List.mem_cons_of_mem _ h)
  · rcases List.mem_cons.mp h with rfl | h
    · exact Or.inl rfl
    · exact Or.inr h

theorem mem_normSegs {a : Bool} {l : List JStr} {s : JStr}
    (h : s ∈ normSegs a l) : s ∈ l := by
  have key : ∀ (m acc : List JStr),
      s ∈ m.foldl (normStep a) acc → s ∈ acc ∨ s ∈ m := by
    intro m
    induction m with
    | nil => intro acc h; exact Or.inl h
    | cons x xs ih =>
      intro acc h
      rcases ih _ h with h | h
      · rcases mem_normStep h with rfl | h
        · exact Or.inr (List.mem_cons_self _ _)
        · exact Or.inl h
      · exact Or.inr (List.mem_cons_of_mem _ h)
  have h0 : s ∈ l.foldl (normStep a) [] := by
    simpa [normSegs, List.mem_reverse] using h
  rcases key l [] h0 with h | h
  · cases h
  · exact h

theorem foldl_normStep_noDD {a : Bool} {rest : List JStr} (h : NoDD rest) :
    ∀ acc, rest.foldl (normStep a) acc = rest.reverse ++ acc := by
  induction rest with
  | nil => intro acc; simp
  | cons x xs ih =>
    intro acc
    have hx : x ≠ ddSeg := h x (List.mem_cons_self _ _)
    have hxs : NoDD xs := fun t ht => h t (List.mem_cons_of_mem _ ht)
    have hstep : normStep a acc x = x :: acc := by
      unfold normStep; rw [if_neg hx]
    rw [List.foldl_cons, hstep, ih hxs]
    simp

theorem foldl_normStep_dots : ∀ (k m : Nat),
    (List.replicate k ddSeg).foldl (normStep true) (List.replicate m ddSeg)
      = List.replicate (k + m) ddSeg := by
  intro k
  induction k with
  | zero => intro m; simp
  | succ n ih =>
    intro m
    rw [List.replicate_succ, List.foldl_cons]
    have hstep : normStep true (List.replicate m ddSeg) ddSeg
        = List.replicate (m + 1) ddSeg := by
      unfold normStep
      rw [if_pos rfl]
      cases m with
      | zero => simp
      | succ m' => simp [List.replicate_succ]
    rw [hstep, ih (m + 1)]
    congr 1
    omega

theorem normSegs_of_reduced {a : Bool} {l : List JStr} (h : Reduced a l) :
    normSegs a l = l := by
  obtain ⟨k, rest, rfl, hnd, hk⟩ := h
  unfold normSegs
  rw [List.foldl_append]
  cases a with
  | false =>
    rw [hk rfl]
    simp only [List.replicate_zero, List.nil_append, List.foldl_nil]
    rw [foldl_normStep_noDD hnd]
    simp
  | true =>
    have h0 : (List.replicate k ddSeg).foldl (normStep true) []
        = List.replicate k ddSeg := by
      simpa using foldl_normStep_dots k 0
    rw [h0, foldl_normStep_noDD hnd]
    rw [List.reverse_append, List.reverse_reverse, List.reverse_replicate]

theorem accOK_normStep {a : Bool} {acc : List JStr} {s : JStr}
    (h : AccOK a acc) : AccOK a (normStep a acc s) := by
  obtain ⟨other, dots, rfl, hnd, hdots, hfa⟩ := h
  unfold normStep
  by_cases hs : s = ddSeg
  · rw [if_pos hs]
    cases other with
    | nil =>
      cases dots with
      | nil =>
        simp only [List.nil_append]
        cases a with
        | true =>
          exact ⟨[], [s], by simp, fun t ht => absurd ht (by simp),
            by intro t ht; simpa [hs] using List.mem_singleton.mp ht,
            fun he => by cases he⟩
        | false => exact ⟨[], [], by simp, hnd, by simp, fun _ => rfl⟩
      | cons d ds =>
        have hd : d = ddSeg := hdots d (List.mem_cons_self _ _)
        simp only [List.nil_append]
        rw [if_pos hd]
        cases a with
        | true =>
          exact ⟨[], s :: d :: ds, rfl, fun t ht => absurd ht (by simp),
            by
              intro t ht
              rcases List.mem_cons.mp ht with rfl | ht
              · exact hs
              · exact hdots t ht,
            fun he => by cases he⟩
        | false =>
          exact absurd (hfa rfl) (by simp)
    | cons o os =>
      have ho : o ≠ ddSeg := hnd o (List.mem_cons_self _ _)
      simp only [List.cons_append]
      rw [if_neg ho]
      exact ⟨os, dots, rfl, fun t ht => hnd t (List.mem_cons_of_mem _ ht),
        hdots, hfa⟩
  · rw [if_neg hs]
    exact ⟨s :: other, dots, rfl,
      by
        intro t ht
        rcases List.mem_cons.mp ht with rfl | ht
        · exact hs
        · exact hnd t ht,
      hdots, hfa⟩

theorem reduced_normSegs (a : Bool) (l : List JStr) : Reduced a (normSegs a l) := by
  have key : ∀ (m acc : List JStr), AccOK a acc → AccOK a (m.foldl (normStep a) acc) := by
    intro m
    induction m with
    | nil => intro acc h; exact h
    | cons x xs ih => intro acc h; exact ih _ (accOK_normStep h)
  have h0 : AccOK a (l.foldl (normStep a) []) :=
    key l [] ⟨[], [], rfl, by simp [NoDD], by simp, fun _ => rfl⟩
  obtain ⟨other, dots, heq, hnd, hdots, hfa⟩ := h0
  refine ⟨dots.length, other.reverse, ?_, ?_, ?_⟩
  · unfold normSegs
    have hrev : dots.reverse = List.replicate dots.length ddSeg := by
      conv_lhs => rw [List.eq_replicate_of_mem hdots]
      rw [List.reverse_replicate]
    rw [heq, List.reverse_append, hrev]
  · intro t ht
    exact hnd t (List.mem_reverse.mp ht)
  · intro he
    rw [hfa he]
    rfl

theorem mem_joinSegs {c : Char} {l : List JStr} (h : c ∈ joinSegs l) :
    (∃ s ∈ l, c ∈ s) ∨ c = '/' := by
  induction l with
  | nil => cases h
  | cons s rest ih =>
    cases rest with
    | nil => exact Or.inl ⟨s, by simp, h⟩
    | cons x xs =>
      simp only [joinSegs, List.mem_append, List.mem_cons] at h
      rcases h with h | h | h
      · exact Or.inl ⟨s, by simp, h⟩
      · exact Or.inr h
      · rcases ih h with ⟨t, ht, hc⟩ | h
        · exact Or.inl ⟨t, List.mem_cons_of_mem _ ht, hc⟩
        · exact Or.inr h

/- Structure of the output of posixNormalize. -/

theorem getLast?_cons_of_ne_nil {α : Type} {a : α} {l : List α} (h : l ≠ []) :
    (a :: l).getLast? = l.getLast? := by
  rw [show (a :: l) = [a] ++ l from rfl, List.getLast?_append]
  cases hj : l.getLast? with
  | none =>
    rw [List.getLast?_eq_none_iff] at hj
    exact absurd hj h
  | some c => rfl

theorem goodSegs_pnSegs (p : JStr) : GoodSegs (pnSegs p) := by
  intro s hs
  have h2 := mem_normSegs hs
  have h3 := List.mem_filter.mp h2
  have hks := h3.2
  simp only [keepSeg, Bool.and_eq_true, Bool.not_eq_true', List.isEmpty_eq_false,
    decide_eq_false_iff_not] at hks
  exact ⟨by simpa using hks.1, slash_not_mem_of_mem_splitSlash h3.1, hks.2⟩

theorem filter_keepSeg_self {l : List JStr} (h : GoodSegs l) :
    l.filter keepSeg = l := by
  rw [List.filter_eq_self]
  intro s hs
  obtain ⟨h1, -, h3⟩ := h s hs
  simp only [keepSeg, Bool.and_eq_true, Bool.not_eq_true', List.isEmpty_eq_false,
    decide_eq_false_iff_not]
  exact ⟨by simpa using h1, h3⟩

theorem head?_joinSegs_ne_slash {l : List JStr} (hne : l ≠ []) (h : GoodSegs l) :
    (joinSegs l).head? ≠ some '/' := by
  cases l with
  | nil => exact absurd rfl hne
  | cons s0 rest =>
    rw [head?_joinSegs (h s0 (List.mem_cons_self _ _)).1]
    cases s0 with
    | nil => exact absurd rfl (h [] (List.mem_cons_self _ _)).1
    | cons c0 s0' =>
      simp only [List.head?_cons, ne_eq, Option.some.injEq]
      intro e
      exact (h _ (List.mem_cons_self _ _)).2.1 (e ▸ List.mem_cons_self c0 s0')

theorem getLast?_joinSegs_ne_slash {l : List JStr} (hne : l ≠ []) (h : GoodSegs l) :
    (joinSegs l).getLast? ≠ some '/' := by
  obtain ⟨c, hc, hcn⟩ := getLast?_joinSegs hne (fun s hs => ⟨(h s hs).1, (h s hs).2.1⟩)
  rw [hc]
  simp [hcn]

theorem splitSlash_joinSegs_good {l : List JStr} (hne : l ≠ []) (h : GoodSegs l) :
    splitSlash (joinSegs l) = l :=
  splitSlash_joinSegs hne (fun s hs => ⟨(h s hs).1, (h s hs).2.1⟩)

/-- Renormalizing a canonical relative body is the identity. -/
theorem posixNormalize_canonical_rel {l : List JStr} (hne : l ≠ [])
    (h : GoodSegs l) (hred : Reduced true l) :
    posixNormalize (joinSegs l) = joinSegs l := by
  have hbne : joinSegs l ≠ [] := joinSegs_ne_nil hne (fun s hs => (h s hs).1)
  have hA : jsIsAbsolute (joinSegs l) = false := by
    unfold jsIsAbsolute
    simp only [decide_eq_false_iff_not]
    exact head?_joinSegs_ne_slash hne h
  have hT : hasTrailSlash (joinSegs l) = false := by
    unfold hasTrailSlash
    simp only [decide_eq_false_iff_not]
    exact getLast?_joinSegs_ne_slash hne h
  have hsegs : pnSegs (joinSegs l) = l := by
    unfold pnSegs
    rw [hA, splitSlash_joinSegs_good hne h, filter_keepSeg_self h]
    exact normSegs_of_reduced hred
  have hbody : pnBody (joinSegs l) = joinSegs l := by
    unfold pnBody
    rw [hsegs]
  unfold posixNormalize
  rw [if_neg hbne, hbody, if_neg hbne, hA, hT]
  simp

/-- Renormalizing a canonical absolute body is the identity. -/
theorem posixNormalize_canonical_abs {l : List JStr} (hne : l ≠ [])
    (h : GoodSegs l) (hred : Reduced false l) :
    posixNormalize ('/' :: joinSegs l) = '/' :: joinSegs l := by
  have hbne : joinSegs l ≠ [] := joinSegs_ne_nil hne (fun s hs => (h s hs).1)
  have hA : jsIsAbsolute ('/' :: joinSegs l) = true := by
    simp [jsIsAbsolute]
  have hT : hasTrailSlash ('/' :: joinSegs l) = false := by
    unfold hasTrailSlash
    simp only [decide_eq_false_iff_not]
    rw [show ('/' :: joinSegs l) = ['/'] ++ joinSegs l from rfl, List.getLast?_append]
    intro he
    apply getLast?_joinSegs_ne_slash hne h
    cases hj : (joinSegs l).getLast? with
    | none =>
      rw [List.getLast?_eq_none_iff] at hj
      exact absurd hj hbne
    | some c =>
      rw [hj] at he
      have hc : c = '/' := by simpa using he
      rw [hc]
  have hsegs : pnSegs ('/' :: joinSegs l) = l := by
    unfold pnSegs
    rw [hA]
    rw [show splitSlash ('/' :: joinSegs l) = [] :: splitSlash (joinSegs l) from by
      simp [splitSlash]]
    rw [splitSlash_joinSegs_good hne h]
    rw [show ([] :: l).filter keepSeg = l.filter keepSeg from by simp [keepSeg]]
    rw [filter_keepSeg_self h]
    exact normSegs_of_reduced hred
  have hbody : pnBody ('/' :: joinSegs l) = joinSegs l := by
    unfold pnBody
    rw [hsegs]
  unfold posixNormalize
  rw [if_neg (by simp : ¬('/' :: joinSegs l : JStr) = [])]
  rw [hbody, if_neg hbne, hA, hT]
  simp

/-- Stripping the trailing slash from the Node-normalized path yields a
fixpoint of Node's normalization, and that fixpoint ends in a slash only
when it is the root path itself. -/
theorem stripTrail_posixNormalize (p : JStr) (hp : p ≠ []) :
    posixNormalize (stripTrail (posixNormalize p)) = stripTrail (posixNormalize p)
    ∧ ((stripTrail (posixNormalize p)).getLast? = some '/' →
        stripTrail (posixNormalize p) = ['/']) := by
  by_cases hb : pnBody p = []
  · have hout : posixNormalize p =
        (if jsIsAbsolute p then ['/']
         else if hasTrailSlash p then ['.', '/'] else ['.']) := by
      unfold posixNormalize
      rw [if_neg hp, if_pos hb]
    rw [hout]
    by_cases hA : jsIsAbsolute p = true
    · rw [if_pos hA]
      exact ⟨by decide, by decide⟩
    · rw [if_neg hA]
      by_cases hT : hasTrailSlash p = true
      · rw [if_pos hT]
        exact ⟨by decide, by decide⟩
      · rw [if_neg hT]
        exact ⟨by decide, by decide⟩
  · have hne : pnSegs p ≠ [] := by
      intro h
      apply hb
      unfold pnBody
      rw [h]
      rfl
    have hgood := goodSegs_pnSegs p
    have hlast : (pnBody p).getLast? ≠ some '/' :=
      getLast?_joinSegs_ne_slash hne hgood
    by_cases hA : jsIsAbsolute p = true
    · have hred : Reduced false (pnSegs p) := by
        have h0 := reduced_normSegs (!jsIsAbsolute p) ((splitSlash p).filter keepSeg)
        rw [hA] at h0
        simpa [pnSegs, hA] using h0
      have hq : stripTrail (posixNormalize p) = '/' :: pnBody p := by
        have hout : posixNormalize p
            = '/' :: (pnBody p ++ (if hasTrailSlash p then ['/'] else [])) := by
          unfold posixNormalize
          rw [if_neg hp, if_neg hb, if_pos hA]
        rw [hout]
        by_cases hT : hasTrailSlash p = true
        · rw [if_pos hT]
          unfold stripTrail
          rw [if_pos ⟨by simp, by
            rw [show ('/' :: (pnBody p ++ ['/'])) = ('/' :: pnBody p) ++ ['/'] from rfl]
            exact List.getLast?_concat _⟩]
          rw [show ('/' :: (pnBody p ++ ['/'])) = ('/' :: pnBody p) ++ ['/'] from rfl]
          exact List.dropLast_concat
        · rw [if_neg hT, List.append_nil]
          unfold stripTrail
          rw [if_neg]
          intro hc
          rw [getLast?_cons_of_ne_nil hb] at hc
          exact hlast hc.2
      rw [hq]
      refine ⟨posixNormalize_canonical_abs hne hgood hred, fun he => ?_⟩
      rw [getLast?_cons_of_ne_nil hb] at he
      exact absurd he hlast
    · have hred : Reduced true (pnSegs p) := by
        have h0 := reduced_normSegs (!jsIsAbsolute p) ((splitSlash p).filter keepSeg)
        have hA' : jsIsAbsolute p = false := Bool.eq_false_iff.mpr hA
        rw [hA'] at h0
        simpa [pnSegs, hA'] using h0
      have hq : stripTrail (posixNormalize p) = pnBody p := by
        have hout : posixNormalize p
            = pnBody p ++ (if hasTrailSlash p then ['/'] else []) := by
          unfold posixNormalize
          rw [if_neg hp, if_neg hb, if_neg hA]
        rw [hout]
        by_cases hT : hasTrailSlash p = true
        · rw [if_pos hT]
          unfold stripTrail
          rw [if_pos ⟨by
              have : pnBody p ≠ [] := hb
              cases hpb : pnBody p with
              | nil => exact absurd hpb this
              | cons x xs => simp
            , List.getLast?_concat _⟩]
          exact List.dropLast_concat
        · rw [if_neg hT, List.append_nil]
          unfold stripTrail
          rw [if_neg]
          intro hc
          exact hlast hc.2
      rw [hq]
      refine ⟨posixNormalize_canonical_rel hne hgood hred, fun he => absurd he hlast⟩

theorem mem_pnBody {c : Char} {p : JStr} (h : c ∈ pnBody p) : c ∈ p ∨ c = '/' := by
  rcases mem_joinSegs h with ⟨s, hs, hcs⟩ | h
  · have h2 := mem_normSegs hs
    have h3 := List.mem_of_mem_filter h2
    exact Or.inl (mem_of_mem_splitSlash h3 hcs)
  · exact Or.inr h

theorem mem_posixNormalize {c : Char} {p : JStr} (h : c ∈ posixNormalize p) :
    c ∈ p ∨ c = '/' ∨ c = '.' := by
  unfold posixNormalize at h
  by_cases h1 : p = []
  · rw [if_pos h1] at h
    right; right; simpa using h
  · rw [if_neg h1] at h
    by_cases h2 : pnBody p = []
    · rw [if_pos h2] at h
      by_cases h3 : jsIsAbsolute p = true
      · rw [if_pos h3] at h
        right; left; simpa using h
      · rw [if_neg h3] at h
        by_cases h4 : hasTrailSlash p = true
        · rw [if_pos h4] at h
          rcases (by simpa using h : c = '.' ∨ c = '/') with rfl | rfl
          · right; right; rfl
          · right; left; rfl
        · rw [if_neg h4] at h
          right; right; simpa using h
    · rw [if_neg h2] at h
      have hbody : c ∈ pnBody p → c ∈ p ∨ c = '/' ∨ c = '.' := fun hc =>
        (mem_pnBody hc).elim Or.inl (fun e => Or.inr (Or.inl e))
      have htail : c ∈ (if hasTrailSlash p then (['/'] : JStr) else []) →
          c = '/' := by
        intro hc
        by_cases h4 : hasTrailSlash p = true
        · rw [if_pos h4] at hc; simpa using hc
        · rw [if_neg h4] at hc; cases hc
      by_cases h3 : jsIsAbsolute p = true
      · rw [if_pos h3] at h
        rcases List.mem_cons.mp h with rfl | h
        · right; left; rfl
        · rcases List.mem_append.mp h with h | h
          · exact hbody h
          · exact Or.inr (Or.inl (htail h))
      · rw [if_neg h3] at h
        rcases List.mem_append.mp h with h | h
        · exact hbody h
        · exact Or.inr (Or.inl (htail h))

theorem backslash_not_mem_posixNormalize {p : JStr} (hp : '\\' ∉ p) :
    '\\' ∉ posixNormalize p := by
  intro h
  rcases mem_posixNormalize h with h | h | h
  · exact hp h
  · exact absurd h (by decide)
  · exact absurd h (by decide)

theorem replaceBackslashes_of_not_mem {l : JStr} (h : '\\' ∉ l) :
    replaceBackslashes l = l := by
  induction l with
  | nil => rfl
  | cons c cs ih =>
    have hc : c ≠ '\\' := fun e => h (e ▸ List.mem_cons_self c cs)
    have htl := ih fun m => h (List.mem_cons_of_mem _ m)
    simp only [replaceBackslashes, List.map_cons, if_neg hc]
    simp only [replaceBackslashes] at htl
    rw [htl]

theorem posixNormalize_ne_nil (p : JStr) : posixNormalize p ≠ [] := by
  unfold posixNormalize
  by_cases h1 : p = []
  · rw [if_pos h1]; simp
  · rw [if_neg h1]
    by_cases h2 : pnBody p = []
    · rw [if_pos h2]
      by_cases h3 : jsIsAbsolute p = true
      · rw [if_pos h3]; simp
      · rw [if_neg h3]
        by_cases h4 : hasTrailSlash p = true
        · rw [if_pos h4]; simp
        · rw [if_neg h4]; simp
    · rw [if_neg h2]
      by_cases h3 : jsIsAbsolute p = true
      · rw [if_pos h3]; simp
      · rw [if_neg h3]
        intro he
        exact h2 (List.append_eq_nil.mp he).1

theorem stripTrail_ne_nil {l : JStr} (h : l ≠ []) : stripTrail l ≠ [] := by
  unfold stripTrail
  split
  · rename_i hcond
    intro he
    have hlen := congrArg List.length he
    rw [List.length_dropLast] at hlen
    simp only [List.length_nil] at hlen
    omega
  · exact h

theorem stripTrail_of_fix {q : JStr} (h : q.getLast? = some '/' → q = ['/']) :
    stripTrail q = q := by
  unfold stripTrail
  split
  · rename_i hc
    have hq := h hc.2
    subst hq
    simp at hc
  · rfl

theorem jsNormalize_eq_stripTrail {p : JStr} (hp : p ≠ []) (hb : '\\' ∉ p) :
    jsNormalize p = stripTrail (posixNormalize p) := by
  unfold jsNormalize
  rw [if_neg hp, replaceBackslashes_of_not_mem (backslash_not_mem_posixNormalize hb)]

/-- Claim C9, counterexample: `PathNormalizer.normalize` is not idempotent as
claimed for every string.  On the input `a\/` Node's posix normalize leaves
the backslash alone (it is an ordinary character on POSIX), producing `a\/`;
the subsequent backslash replacement yields `a//` and the trailing-slash
removal yields `a/` — a result that still ends in `/` and normalizes further
to `a` on a second pass. -/
theorem normalize_idempotent_counterexample :
    jsNormalize (jsNormalize ('a' :: '\\' :: '/' :: [])) ≠
      jsNormalize ('a' :: '\\' :: '/' :: []) := by decide

/-- Claim C9, amended: the result of `PathNormalizer.normalize` never
contains a backslash; and for every input that contains no backslash,
normalize is idempotent and its result does not end with `/` unless the
whole result is `/`.  (The original claim asserted idempotence and the
trailing-slash property for every string; both fail on inputs such as
`a\/` where a backslash hides a slash from Node's normalization.) -/
theorem normalize_idempotent_amended :
    (∀ p : JStr, '\\' ∉ jsNormalize p)
    ∧ (∀ p : JStr, '\\' ∉ p →
        jsNormalize (jsNormalize p) = jsNormalize p
        ∧ ((jsNormalize p).getLast? = some '/' → jsNormalize p = ['/'])) := by
  refine ⟨backslash_not_mem_jsNormalize, fun p hb => ?_⟩
  by_cases hp : p = []
  · subst hp
    exact ⟨by decide, by decide⟩
  · have heq := jsNormalize_eq_stripTrail hp hb
    obtain ⟨hfix, hlast⟩ := stripTrail_posixNormalize p hp
    have hq_ne : jsNormalize p ≠ [] := by
      rw [heq]
      exact stripTrail_ne_nil (posixNormalize_ne_nil p)
    have hqb : '\\' ∉ jsNormalize p := backslash_not_mem_jsNormalize p
    refine ⟨?_, by rw [heq]; exact hlast⟩
    rw [jsNormalize_eq_stripTrail hq_ne hqb, heq, hfix]
    exact stripTrail_of_fix hlast

/-- Claim C9, amended, witness at the concrete backslash-free input `foo/`. -/
theorem normalize_idempotent_amended_witness :
    '\\' ∉ ('f' :: 'o' :: 'o' :: '/' :: [])
    ∧ (jsNormalize (jsNormalize ('f' :: 'o' :: 'o' :: '/' :: []))
          = jsNormalize ('f' :: 'o' :: 'o' :: '/' :: [])
        ∧ ((jsNormalize ('f' :: 'o' :: 'o' :: '/' :: [])).getLast? = some '/' →
            jsNormalize ('f' :: 'o' :: 'o' :: '/' :: []) = ['/'])) :=
  ⟨by decide, normalize_idempotent_amended.2 ('f' :: 'o' :: 'o' :: '/' :: []) (by decide)⟩

/-- Claim C10: `PathNormalizer.isSafe` returns false exactly when the
normalized path contains the substring `../`; the `..\` check in the source
can never fire because normalization has already replaced every backslash
with a forward slash. -/
theorem isSafe_false_iff_normalized_dotdot :
    ∀ p : JStr,
      (isSafe p = false ↔ jsIncludes (jsNormalize p) ['.', '.', '/'] = true)
      ∧ jsIncludes (jsNormalize p) ['.', '.', '\\'] = false := by
  intro p
  have h2 : jsIncludes (jsNormalize p) ['.', '.', '\\'] = false := by
    cases hi : jsIncludes (jsNormalize p) ['.', '.', '\\'] with
    | false => rfl
    | true =>
      have hm := mem_of_jsIncludes hi '\\' (by simp)
      exact absurd hm (backslash_not_mem_jsNormalize p)
  refine ⟨?_, h2⟩
  unfold isSafe
  show (if (jsIncludes (jsNormalize p) ['.', '.', '/']
          || jsIncludes (jsNormalize p) ['.', '.', '\\']) = true then false
        else if jsIsAbsolute (jsNormalize p) = true then true else true) = false
      ↔ jsIncludes (jsNormalize p) ['.', '.', '/'] = true
  rw [h2]
  simp only [Bool.or_false]
  cases hA : jsIncludes (jsNormalize p) ['.', '.', '/'] with
  | true => simp
  | false =>
    simp only [Bool.false_eq_true, if_false]
    constructor
    · intro hfalse
      by_cases hab : jsIsAbsolute (jsNormalize p) = true
      · rw [if_pos hab] at hfalse; cases hfalse
      · rw [if_neg hab] at hfalse; cases hfalse
    · intro htrue; cases htrue

/- Step equations of the traversal. -/

theorem processDir_nil (opts : FolderOptions) (path pre : String) (st : TState) :
    processDir opts path pre [] st = ([], st) := by
  simp [processDir, renderSlots, descendSlots]

theorem descendSlots_nil (opts : FolderOptions) (path pre : String) (st : TState) :
    descendSlots opts path pre [] st = ([], st) := by
  simp [descendSlots]

theorem descendSlots_mkPlaceholders (opts : FolderOptions) (path pre : String)
    (l : List FSTree) : ∀ st,
    descendSlots opts path pre (mkPlaceholders l) st = (placeholderLines pre l, st) := by
  induction l with
  | nil => intro st; simp [mkPlaceholders, placeholderLines, descendSlots]
  | cons t rest ih =>
    intro st
    simp only [mkPlaceholders, placeholderLines, descendSlots, ih]

/-- Modelled behavior (spec §4.3 step 1): budget already exhausted at the
head of a sibling list — every sibling becomes one placeholder line and
truncation is recorded; the budget stays at zero. -/
theorem processDir_budget_exhausted (opts : FolderOptions) (path pre : String)
    (e : FSTree) (rest : List FSTree) (st : TState)
    (hb : st.remainingBudget = 0) :
    processDir opts path pre (e :: rest) st
      = (placeholderLines pre (e :: rest), ⟨0, true⟩) := by
  have hst : ({ st with truncationOccurred := true } : TState) = ⟨0, true⟩ := by
    cases st
    simp only at hb
    rw [hb]
  cases e with
  | file n =>
    simp only [processDir, renderSlots, if_pos hb, descendSlots_mkPlaceholders, hst]
  | dir n cs =>
    simp only [processDir, renderSlots, if_pos hb, descendSlots_mkPlaceholders, hst]

/-- Modelled behavior (spec §4.3 step 3): budget zero right before a
directory's children would be read — the directory renders as a plain leaf
line, nothing is emitted for the unread children, and the state (budget and
truncation flag alike) is untouched by the skip. -/
theorem descendSlots_skip_descent (opts : FolderOptions) (path pre : String)
    (n : String) (isLast : Bool) (cs : List FSTree) (ss : List Slot) (st : TState)
    (hb : st.remainingBudget = 0) :
    descendSlots opts path pre (Slot.dir n false isLast (some cs) :: ss) st
      = (⟨LineKind.dir false, pre ++ connector isLast ++ n ++ "/"⟩
           :: (descendSlots opts path pre ss st).1,
         (descendSlots opts path pre ss st).2) := by
  simp only [descendSlots, if_pos hb]

theorem placeholderLines_length (pre : String) (l : List FSTree) :
    (placeholderLines pre l).length = l.length := by
  induction l with
  | nil => rfl
  | cons t rest ih => simp [placeholderLines, ih]

theorem orderEntries_nil : orderEntries [] = [] := rfl

/-- Modelled behavior (spec §4.3 step 2): an excluded directory at the head
of a sibling list is listed with the inline `name/...` marker, truncation is
recorded, one budget unit is consumed, and its children are never read —
the rest of the traversal does not depend on them. -/
theorem processDir_excluded_cons (opts : FolderOptions) (path pre n : String)
    (cs : Option (List FSTree)) (rest : List FSTree) (st : TState)
    (hb : ¬st.remainingBudget = 0)
    (hex : isExcludedDir opts (joinPath path n) n = true) :
    processDir opts path pre (FSTree.dir n cs :: rest) st
      = (⟨LineKind.dir true, pre ++ connector rest.isEmpty ++ n ++ "/..."⟩
           :: (processDir opts path pre rest ⟨st.remainingBudget - 1, true⟩).1,
         (processDir opts path pre rest ⟨st.remainingBudget - 1, true⟩).2) := by
  simp only [processDir, renderSlots]
  rw [if_neg hb, if_pos hex]
  simp only [descendSlots]

/-- Modelled behavior (spec §7): a non-excluded directory whose listing
fails (`NotReadable` on a descendant) renders as a leaf line with no
children and no error text; it consumes one budget unit and leaves the
truncation flag alone. -/
theorem processDir_notreadable_cons (opts : FolderOptions) (path pre n : String)
    (rest : List FSTree) (st : TState)
    (hb : ¬st.remainingBudget = 0)
    (hex : isExcludedDir opts (joinPath path n) n = false) :
    processDir opts path pre (FSTree.dir n none :: rest) st
      = (⟨LineKind.dir false, pre ++ connector rest.isEmpty ++ n ++ "/"⟩
           :: (processDir opts path pre rest
                 ⟨st.remainingBudget - 1, st.truncationOccurred⟩).1,
         (processDir opts path pre rest
            ⟨st.remainingBudget - 1, st.truncationOccurred⟩).2) := by
  simp only [processDir, renderSlots]
  rw [if_neg hb, if_neg (by rw [hex]; exact Bool.false_ne_true)]
  simp only [descendSlots]

/-- Modelled behavior (spec §4.3 step 4): a non-excluded readable directory
whose child list is empty after filtering renders as a leaf with no
children; it consumes one budget unit and leaves the truncation flag
alone. -/
theorem processDir_empty_children_cons (opts : FolderOptions) (path pre n : String)
    (csl : List FSTree) (rest : List FSTree) (st : TState)
    (hb : ¬st.remainingBudget = 0)
    (hex : isExcludedDir opts (joinPath path n) n = false)
    (hfe : filterEntries opts (joinPath path n) csl = []) :
    processDir opts path pre (FSTree.dir n (some csl) :: rest) st
      = (⟨LineKind.dir false, pre ++ connector rest.isEmpty ++ n ++ "/"⟩
           :: (processDir opts path pre rest
                 ⟨st.remainingBudget - 1, st.truncationOccurred⟩).1,
         (processDir opts path pre rest
            ⟨st.remainingBudget - 1, st.truncationOccurred⟩).2) := by
  simp only [processDir, renderSlots]
  rw [if_neg hb, if_neg (by rw [hex]; exact Bool.false_ne_true)]
  simp only [descendSlots]
  by_cases hz : ((renderSlots opts path rest
      ⟨st.remainingBudget - 1, st.truncationOccurred⟩).2).remainingBudget = 0
  · rw [if_pos hz]
  · rw [if_neg hz, hfe, orderEntries_nil, processDir_nil]
    simp only [List.nil_append]

/- Counting lemmas. -/

theorem countEntryLines_cons (l : RLine) (ls : List RLine) :
    countEntryLines (l :: ls)
      = (if isEntryLine l then 1 else 0) + countEntryLines ls := by
  unfold countEntryLines
  rw [List.filter_cons]
  split
  · simp only [List.length_cons]
    omega
  · simp

theorem countEntryLines_append (a b : List RLine) :
    countEntryLines (a ++ b) = countEntryLines a + countEntryLines b := by
  unfold countEntryLines
  rw [List.filter_append, List.length_append]

theorem countEntrySlots_cons (s : Slot) (ss : List Slot) :
    countEntrySlots (s :: ss)
      = (if isEntrySlot s then 1 else 0) + countEntrySlots ss := by
  unfold countEntrySlots
  rw [List.filter_cons]
  split
  · simp only [List.length_cons]
    omega
  · simp

theorem hasMarker_cons (l : RLine) (ls : List RLine) :
    hasMarker (l :: ls) = (isMarkerLine l || hasMarker ls) := by
  simp [hasMarker]

theorem hasMarker_append (a b : List RLine) :
    hasMarker (a ++ b) = (hasMarker a || hasMarker b) := by
  simp [hasMarker]

theorem hasMarkerSlot_cons (s : Slot) (ss : List Slot) :
    hasMarkerSlot (s :: ss) = (isMarkerSlot s || hasMarkerSlot ss) := by
  simp [hasMarkerSlot]

theorem countEntrySlots_mkPlaceholders (l : List FSTree) :
    countEntrySlots (mkPlaceholders l) = 0 := by
  induction l with
  | nil => rfl
  | cons t rest ih =>
    simp only [mkPlaceholders, countEntrySlots_cons, ih, isEntrySlot]
    simp

theorem hasMarkerSlot_mkPlaceholders_cons (e : FSTree) (rest : List FSTree) :
    hasMarkerSlot (mkPlaceholders (e :: rest)) = true := by
  simp [mkPlaceholders, hasMarkerSlot, isMarkerSlot]

theorem countEntryLines_placeholderLines (pre : String) (l : List FSTree) :
    countEntryLines (placeholderLines pre l) = 0 := by
  induction l with
  | nil => rfl
  | cons t rest ih =>
    simp only [placeholderLines, countEntryLines_cons, ih, isEntryLine]
    simp

/-- Invariant of the budget pass: the number of entry slots equals the
budget that was consumed, and the resulting truncation flag is the old one
joined with the presence of marker slots. -/
theorem renderSlots_inv (opts : FolderOptions) (path : String) :
    ∀ (es : List FSTree) (st : TState),
      countEntrySlots (renderSlots opts path es st).1
          + (renderSlots opts path es st).2.remainingBudget = st.remainingBudget
      ∧ (renderSlots opts path es st).2.truncationOccurred
          = (st.truncationOccurred
              || hasMarkerSlot (renderSlots opts path es st).1) := by
  intro es
  induction es with
  | nil =>
    intro st
    simp [renderSlots, countEntrySlots, hasMarkerSlot]
  | cons e rest ih =>
    intro st
    by_cases hb : st.remainingBudget = 0
    · cases e with
      | file n =>
        simp only [renderSlots, if_pos hb]
        rw [countEntrySlots_mkPlaceholders, hasMarkerSlot_mkPlaceholders_cons]
        simp [hb]
      | dir n cs =>
        simp only [renderSlots, if_pos hb]
        rw [countEntrySlots_mkPlaceholders, hasMarkerSlot_mkPlaceholders_cons]
        simp [hb]
    · cases e with
      | file n =>
        simp only [renderSlots, if_neg hb]
        obtain ⟨ihc, iht⟩ := ih ⟨st.remainingBudget - 1, st.truncationOccurred⟩
        constructor
        · rw [countEntrySlots_cons]
          simp only [isEntrySlot, eq_self_iff_true, if_true]
          simp only at ihc
          omega
        · rw [hasMarkerSlot_cons]
          simp only [isMarkerSlot, Bool.false_or]
          simpa using iht
      | dir n cs =>
        simp only [renderSlots, if_neg hb]
        by_cases hex : isExcludedDir opts (joinPath path n) n = true
        · rw [if_pos hex]
          obtain ⟨ihc, iht⟩ := ih ⟨st.remainingBudget - 1, true⟩
          constructor
          · rw [countEntrySlots_cons]
            simp only [isEntrySlot, eq_self_iff_true, if_true]
            simp only at ihc
            omega
          · rw [hasMarkerSlot_cons]
            simp only [isMarkerSlot, Bool.true_or]
            simp only at iht
            rw [iht]
            simp
        · rw [if_neg hex]
          obtain ⟨ihc, iht⟩ := ih ⟨st.remainingBudget - 1, st.truncationOccurred⟩
          constructor
          · rw [countEntrySlots_cons]
            simp only [isEntrySlot, eq_self_iff_true, if_true]
            simp only at ihc
            omega
          · rw [hasMarkerSlot_cons]
            simp only [isMarkerSlot, Bool.false_or]
            simpa using iht

theorem slotSize_pos (s : Slot) : 1 ≤ slotSize s := by
  cases s with
  | placeholder isLast => simp [slotSize]
  | file n isLast => simp [slotSize]
  | dir n ex isLast cs =>
    cases cs with
    | none => simp [slotSize]
    | some csl =>
      simp only [slotSize]
      omega

theorem ltsize_orderFilter_le (opts : FolderOptions) (p : String)
    (cs : List FSTree) :
    ltsize (orderEntries (filterEntries opts p cs)) ≤ ltsize cs := by
  rw [ltsize_orderEntries]
  exact ltsize_filter _ _

/-- Joint budget and truncation invariant of the two traversal passes, by
strong induction on the size measure.  For `processDir`: the number of
name-bearing entry lines equals the budget consumed, the budget never
grows, and the final truncation flag is the initial one joined with the
presence of a marker among the emitted lines.  For `descendSlots` the same
facts hold relative to the slots already paid for during the budget
pass. -/
theorem traversal_inv : ∀ (N : Nat),
    (∀ (opts : FolderOptions) (path pre : String) (es : List FSTree) (st : TState),
      1 + ltsize es ≤ N →
        countEntryLines (processDir opts path pre es st).1
            + (processDir opts path pre es st).2.remainingBudget
          = st.remainingBudget
        ∧ (processDir opts path pre es st).2.remainingBudget ≤ st.remainingBudget
        ∧ (processDir opts path pre es st).2.truncationOccurred
            = (st.truncationOccurred || hasMarker (processDir opts path pre es st).1))
    ∧ (∀ (opts : FolderOptions) (path pre : String) (ss : List Slot) (st : TState),
      slotsSize ss ≤ N →
        countEntryLines (descendSlots opts path pre ss st).1
            + (descendSlots opts path pre ss st).2.remainingBudget
          = countEntrySlots ss + st.remainingBudget
        ∧ (descendSlots opts path pre ss st).2.remainingBudget ≤ st.remainingBudget
        ∧ ((descendSlots opts path pre ss st).2.truncationOccurred || hasMarkerSlot ss)
            = (st.truncationOccurred || hasMarker (descendSlots opts path pre ss st).1)
        ∧ (hasMarkerSlot ss = true
            → hasMarker (descendSlots opts path pre ss st).1 = true)
        ∧ (st.truncationOccurred = true
            → (descendSlots opts path pre ss st).2.truncationOccurred = true)) := by
  intro N
  induction N with
  | zero =>
    constructor
    · intro opts path pre es st h
      exact absurd h (by omega)
    · intro opts path pre ss st h
      cases ss with
      | nil =>
        rw [descendSlots_nil]
        simp [countEntryLines, countEntrySlots, hasMarker, hasMarkerSlot]
      | cons s ss' =>
        exfalso
        have := slotSize_pos s
        simp only [slotsSize] at h
        omega
  | succ N ih =>
    obtain ⟨ihp, ihd⟩ := ih
    constructor
    · intro opts path pre es st hN
      have hslots := slotsSize_renderSlots opts path es st
      obtain ⟨hc, ht⟩ := renderSlots_inv opts path es st
      obtain ⟨hd1, hd2, hd3, hd4, hd5⟩ := ihd opts path pre
        (renderSlots opts path es st).1 (renderSlots opts path es st).2 (by omega)
      have hpd : processDir opts path pre es st
          = descendSlots opts path pre (renderSlots opts path es st).1
              (renderSlots opts path es st).2 := by
        simp only [processDir]
      refine ⟨?_, ?_, ?_⟩
      · rw [hpd]
        omega
      · rw [hpd]
        omega
      · rw [hpd]
        cases hms : hasMarkerSlot (renderSlots opts path es st).1 with
        | false =>
          rw [hms] at ht hd3
          simp only [Bool.or_false] at ht hd3
          rw [ht] at hd3
          exact hd3
        | true =>
          have hml := hd4 hms
          have h1 : (renderSlots opts path es st).2.truncationOccurred = true := by
            rw [ht, hms]
            simp
          have h2 := hd5 h1
          rw [h2, hml]
          simp
    · intro opts path pre ss st hN
      cases ss with
      | nil =>
        rw [descendSlots_nil]
        simp [countEntryLines, countEntrySlots, hasMarker, hasMarkerSlot]
      | cons s ss' =>
        have hss : slotsSize ss' ≤ N := by
          have := slotSize_pos s
          simp only [slotsSize] at hN
          omega
        cases s with
        | placeholder isLast =>
          simp only [descendSlots]
          obtain ⟨hd1, hd2, hd3, hd4, hd5⟩ := ihd opts path pre ss' st hss
          refine ⟨?_, hd2, ?_, ?_, hd5⟩
          · rw [countEntryLines_cons, countEntrySlots_cons]
            simp only [isEntryLine, isEntrySlot]
            simp only [if_neg (by exact Bool.false_ne_true)]
            omega
          · rw [hasMarkerSlot_cons, hasMarker_cons]
            simp only [isMarkerLine, isMarkerSlot, Bool.true_or]
            simp
          · intro h
            rw [hasMarker_cons]
            simp only [isMarkerLine, Bool.true_or]
        | file n isLast =>
          simp only [descendSlots]
          obtain ⟨hd1, hd2, hd3, hd4, hd5⟩ := ihd opts path pre ss' st hss
          refine ⟨?_, hd2, ?_, ?_, hd5⟩
          · rw [countEntryLines_cons, countEntrySlots_cons]
            simp only [isEntryLine, isEntrySlot, eq_self_iff_true, if_true]
            omega
          · rw [hasMarkerSlot_cons, hasMarker_cons]
            simp only [isMarkerLine, isMarkerSlot, Bool.false_or]
            exact hd3
          · intro h
            rw [hasMarker_cons]
            simp only [isMarkerLine, Bool.false_or]
            rw [hasMarkerSlot_cons] at h
            simp only [isMarkerSlot, Bool.false_or] at h
            exact hd4 h
        | dir n excluded isLast cs =>
          cases excluded with
          | true =>
            simp only [descendSlots]
            obtain ⟨hd1, hd2, hd3, hd4, hd5⟩ := ihd opts path pre ss' st hss
            refine ⟨?_, hd2, ?_, ?_, hd5⟩
            · rw [countEntryLines_cons, countEntrySlots_cons]
              simp only [isEntryLine, isEntrySlot, eq_self_iff_true, if_true]
              omega
            · rw [hasMarkerSlot_cons, hasMarker_cons]
              simp only [isMarkerLine, isMarkerSlot, Bool.true_or]
              simp
            · intro h
              rw [hasMarker_cons]
              simp only [isMarkerLine, Bool.true_or]
          | false =>
            cases cs with
            | none =>
              simp only [descendSlots]
              obtain ⟨hd1, hd2, hd3, hd4, hd5⟩ := ihd opts path pre ss' st hss
              refine ⟨?_, hd2, ?_, ?_, hd5⟩
              · rw [countEntryLines_cons, countEntrySlots_cons]
                simp only [isEntryLine, isEntrySlot, eq_self_iff_true, if_true]
                omega
              · rw [hasMarkerSlot_cons, hasMarker_cons]
                simp only [isMarkerLine, isMarkerSlot, Bool.false_or]
                exact hd3
              · intro h
                rw [hasMarker_cons]
                simp only [isMarkerLine, Bool.false_or]
                rw [hasMarkerSlot_cons] at h
                simp only [isMarkerSlot, Bool.false_or] at h
                exact hd4 h
            | some csl =>
              by_cases hz : st.remainingBudget = 0
              · simp only [descendSlots, if_pos hz]
                obtain ⟨hd1, hd2, hd3, hd4, hd5⟩ := ihd opts path pre ss' st hss
                refine ⟨?_, hd2, ?_, ?_, hd5⟩
                · rw [countEntryLines_cons, countEntrySlots_cons]
                  simp only [isEntryLine, isEntrySlot, eq_self_iff_true, if_true]
                  omega
                · rw [hasMarkerSlot_cons, hasMarker_cons]
                  simp only [isMarkerLine, isMarkerSlot, Bool.false_or]
                  exact hd3
                · intro h
                  rw [hasMarker_cons]
                  simp only [isMarkerLine, Bool.false_or]
                  rw [hasMarkerSlot_cons] at h
                  simp only [isMarkerSlot, Bool.false_or] at h
                  exact hd4 h
              · simp only [descendSlots, if_neg hz]
                have hes : 1 + ltsize (orderEntries
                    (filterEntries opts (joinPath path n) csl)) ≤ N := by
                  have := ltsize_orderFilter_le opts (joinPath path n) csl
                  simp only [slotsSize, slotSize] at hN
                  omega
                obtain ⟨hp1, hp2, hp3⟩ := ihp opts (joinPath path n)
                  (pre ++ (if isLast then ("    ") else ("│   ")))
                  (orderEntries (filterEntries opts (joinPath path n) csl)) st hes
                obtain ⟨hd1, hd2, hd3, hd4, hd5⟩ := ihd opts path pre ss'
                  (processDir opts (joinPath path n)
                    (pre ++ (if isLast then ("    ") else ("│   ")))
                    (orderEntries (filterEntries opts (joinPath path n) csl)) st).2 hss
                refine ⟨?_, ?_, ?_, ?_, ?_⟩
                · rw [countEntryLines_cons, countEntryLines_append, countEntrySlots_cons]
                  simp only [isEntryLine, isEntrySlot, eq_self_iff_true, if_true]
                  omega
                · omega
                · rw [hasMarkerSlot_cons, hasMarker_cons, hasMarker_append]
                  simp only [isMarkerLine, isMarkerSlot, Bool.false_or]
                  rw [hd3, hp3, Bool.or_assoc]
                · intro h
                  rw [hasMarkerSlot_cons] at h
                  simp only [isMarkerSlot, Bool.false_or] at h
                  rw [hasMarker_cons, hasMarker_append]
                  simp only [isMarkerLine, Bool.false_or]
                  rw [hd4 h]
                  simp
                · intro h
                  apply hd5
                  rw [hp3, h]
                  simp

/-- Instance of the joint invariant for one `processDir` call. -/
theorem processDir_inv (opts : FolderOptions) (path pre : String)
    (es : List FSTree) (st : TState) :
    countEntryLines (processDir opts path pre es st).1
        + (processDir opts path pre es st).2.remainingBudget
      = st.remainingBudget
    ∧ (processDir opts path pre es st).2.remainingBudget ≤ st.remainingBudget
    ∧ (processDir opts path pre es st).2.truncationOccurred
        = (st.truncationOccurred || hasMarker (processDir opts path pre es st).1) :=
  (traversal_inv (1 + ltsize es)).1 opts path pre es st (le_refl _)

theorem buildFull_some_lines (rootPath : String) (cs : List FSTree)
    (opts : FolderOptions) :
    (buildFull rootPath (some cs) opts).lines
      = (processDir opts rootPath ("")
          (orderEntries (filterEntries opts rootPath cs)) ⟨opts.maxItems, false⟩).1 := by
  simp only [buildFull]

theorem buildFull_some_truncation (rootPath : String) (cs : List FSTree)
    (opts : FolderOptions) :
    (buildFull rootPath (some cs) opts).truncation
      = (processDir opts rootPath ("")
          (orderEntries (filterEntries opts rootPath cs)) ⟨opts.maxItems, false⟩).2.truncationOccurred := by
  simp only [buildFull]

/-- Claim C1: for every root directory (readable root contents) and every
options value, the body of the output contains at most `maxItems`
name-bearing entry lines — bare `...` placeholder lines are not counted —
and `maxItems` defaults to 200. -/
theorem build_respects_maxItems :
    (∀ (rootPath : String) (cs : List FSTree) (opts : FolderOptions),
      countEntryLines (buildFull rootPath (some cs) opts).lines ≤ opts.maxItems)
    ∧ ({} : FolderOptions).maxItems = 200 := by
  constructor
  · intro rootPath cs opts
    obtain ⟨h1, h2, h3⟩ := processDir_inv opts rootPath ("")
      (orderEntries (filterEntries opts rootPath cs)) ⟨opts.maxItems, false⟩
    rw [buildFull_some_lines]
    simp only at h1
    omega
  · rfl

/-- Claim C3: `build` always returns a string (it is a total function of its
inputs); when the root directory cannot be read, the entire output is the
single error line `Error: Could not read directory "{rootPath}". Check path
and permissions.` with no header and no tree body. -/
theorem build_root_error :
    ∀ (rootPath : String) (opts : FolderOptions),
      build rootPath none opts
        = "Error: Could not read directory \"" ++ rootPath
            ++ "\". Check path and permissions." := by
  intro rootPath opts
  rfl

/-- Claim C4: the extra header clause appears in the output exactly when the
rendered body contains an inline `name/...` marker or a bare `...`
placeholder line: the final truncation flag equals the presence of a marker
line, and the summary line carries `truncClause` exactly under that flag. -/
theorem header_clause_iff_marker :
    ∀ (rootPath : String) (cs : List FSTree) (opts : FolderOptions),
      ((buildFull rootPath (some cs) opts).truncation = true
        ↔ hasMarker (buildFull rootPath (some cs) opts).lines = true)
      ∧ headerLine opts (buildFull rootPath (some cs) opts).truncation
          = "Showing up to " ++ toString opts.maxItems ++ " items (files + folders)."
            ++ (if hasMarker (buildFull rootPath (some cs) opts).lines
                  then truncClause opts.maxItems else (""))
      ∧ (buildFull rootPath (some cs) opts).outText
          = "\n" ++ headerLine opts (buildFull rootPath (some cs) opts).truncation
            ++ "\n\n" ++ rootPath ++ "/" ++ "\n"
            ++ renderBody (buildFull rootPath (some cs) opts).lines := by
  intro rootPath cs opts
  obtain ⟨h1, h2, h3⟩ := processDir_inv opts rootPath ("")
    (orderEntries (filterEntries opts rootPath cs)) ⟨opts.maxItems, false⟩
  simp only at h3
  have htm : (buildFull rootPath (some cs) opts).truncation
      = hasMarker (buildFull rootPath (some cs) opts).lines := by
    rw [buildFull_some_truncation, buildFull_some_lines, h3]
    simp
  refine ⟨by rw [htm], ?_, ?_⟩
  · rw [headerLine, htm]
  · simp only [buildFull]

/-- Claim C2: when the global budget reaches zero while entries remain in
the current sibling list, the whole list collapses to exactly one bare
`...` placeholder line per sibling and the truncation flag is set; whereas
when the budget is already zero before a directory's children would be
read, the directory line is emitted alone — no placeholder, no line for the
unread children — and the state, truncation flag included, is untouched by
the skip. -/
theorem budget_exhaustion_two_tier :
    (∀ (opts : FolderOptions) (path pre : String) (e : FSTree)
        (rest : List FSTree) (st : TState),
      st.remainingBudget = 0 →
      processDir opts path pre (e :: rest) st
        = (placeholderLines pre (e :: rest), ⟨0, true⟩))
    ∧ (∀ (pre : String) (l : List FSTree),
        (placeholderLines pre l).length = l.length)
    ∧ (∀ (opts : FolderOptions) (path pre n : String) (isLast : Bool)
        (cs : List FSTree) (ss : List Slot) (st : TState),
      st.remainingBudget = 0 →
      descendSlots opts path pre (Slot.dir n false isLast (some cs) :: ss) st
        = (⟨LineKind.dir false, pre ++ connector isLast ++ n ++ "/"⟩
             :: (descendSlots opts path pre ss st).1,
           (descendSlots opts path pre ss st).2)) :=
  ⟨processDir_budget_exhausted, placeholderLines_length, descendSlots_skip_descent⟩

/-- Claim C2 witness at concrete inputs: a two-file list with budget zero
collapses to two placeholders; a directory slot with budget zero renders
only its own line. -/
theorem budget_exhaustion_two_tier_witness :
    (⟨0, false⟩ : TState).remainingBudget = 0
    ∧ processDir ({} : FolderOptions) ("/r") ("")
        [FSTree.file ("a.txt"), FSTree.file ("b.txt")] ⟨0, false⟩
      = (placeholderLines ("") [FSTree.file ("a.txt"), FSTree.file ("b.txt")],
         ⟨0, true⟩)
    ∧ descendSlots ({} : FolderOptions) ("/r") ("")
        [Slot.dir ("d") false true (some [FSTree.file ("x")])] ⟨0, false⟩
      = (⟨LineKind.dir false, ("") ++ connector true ++ ("d") ++ "/"⟩
           :: (descendSlots ({} : FolderOptions) ("/r") ("") [] ⟨0, false⟩).1,
         (descendSlots ({} : FolderOptions) ("/r") ("") [] ⟨0, false⟩).2) :=
  ⟨rfl,
   budget_exhaustion_two_tier.1 ({} : FolderOptions) ("/r") ("") (FSTree.file ("a.txt"))
     [FSTree.file ("b.txt")] ⟨0, false⟩ rfl,
   budget_exhaustion_two_tier.2.2 ({} : FolderOptions) ("/r") ("") ("d") true
     [FSTree.file ("x")] [] ⟨0, false⟩ rfl⟩

/- Ordering lemmas for claim C5. -/

theorem lexLe_total (a : List Char) : ∀ b, lexLe a b = true ∨ lexLe b a = true := by
  induction a with
  | nil => intro b; left; rfl
  | cons x xs ih =>
    intro b
    cases b with
    | nil => right; rfl
    | cons y ys =>
      by_cases h1 : x.toNat < y.toNat
      · left; simp [lexLe, h1]
      · by_cases h2 : y.toNat < x.toNat
        · right; simp [lexLe, h2]
        · rcases ih ys with h | h
          · left; simp [lexLe, h1, h2, h]
          · right; simp [lexLe, h1, h2, h]

theorem lexLe_trans {a b c : List Char} (h1 : lexLe a b = true)
    (h2 : lexLe b c = true) : lexLe a c = true := by
  induction a generalizing b c with
  | nil => rfl
  | cons x xs ih =>
    cases b with
    | nil => simp [lexLe] at h1
    | cons y ys =>
      cases c with
      | nil => simp [lexLe] at h2
      | cons z zs =>
        simp only [lexLe] at h1 h2 ⊢
        by_cases hxy : x.toNat < y.toNat
        · by_cases hyz : y.toNat < z.toNat
          · rw [if_pos (by omega)]
          · rw [if_neg hyz] at h2
            by_cases hzy : z.toNat < y.toNat
            · rw [if_pos hzy] at h2; cases h2
            · rw [if_pos (by omega)]
        · rw [if_neg hxy] at h1
          by_cases hyx : y.toNat < x.toNat
          · rw [if_pos hyx] at h1; cases h1
          · rw [if_neg hyx] at h1
            by_cases hyz : y.toNat < z.toNat
            · rw [if_pos (by omega)]
            · rw [if_neg hyz] at h2
              by_cases hzy : z.toNat < y.toNat
              · rw [if_pos hzy] at h2; cases h2
              · rw [if_neg hzy] at h2
                rw [if_neg (by omega), if_neg (by omega)]
                exact ih h1 h2

theorem nameLe_total (a b : FSTree) : nameLe a b = true ∨ nameLe b a = true :=
  lexLe_total (entryName a).data (entryName b).data

theorem nameLe_trans {a b c : FSTree} (h1 : nameLe a b = true)
    (h2 : nameLe b c = true) : nameLe a c = true :=
  lexLe_trans h1 h2

theorem mem_insertSorted {x y : FSTree} {l : List FSTree}
    (h : y ∈ insertSorted x l) : y = x ∨ y ∈ l := by
  induction l with
  | nil =>
    simp only [insertSorted, List.mem_singleton] at h
    exact Or.inl h
  | cons z zs ih =>
    simp only [insertSorted] at h
    split at h
    · rcases List.mem_cons.mp h with rfl | h
      · exact Or.inl rfl
      · exact Or.inr h
    · rcases List.mem_cons.mp h with rfl | h
      · exact Or.inr (List.mem_cons_self _ _)
      · rcases ih h with h | h
        · exact Or.inl h
        · exact Or.inr (List.mem_cons_of_mem _ h)

theorem mem_sortByName {y : FSTree} {l : List FSTree}
    (h : y ∈ sortByName l) : y ∈ l := by
  induction l generalizing y with
  | nil => cases h
  | cons z zs ih =>
    simp only [sortByName] at h
    rcases mem_insertSorted h with rfl | h
    · exact List.mem_cons_self _ _
    · exact List.mem_cons_of_mem _ (ih h)

theorem pairwise_insertSorted (x : FSTree) {l : List FSTree}
    (hl : List.Pairwise (fun a b => nameLe a b = true) l) :
    List.Pairwise (fun a b => nameLe a b = true) (insertSorted x l) := by
  induction l with
  | nil => simp [insertSorted]
  | cons y ys ih =>
    simp only [insertSorted]
    obtain ⟨hy, hys⟩ := List.pairwise_cons.mp hl
    split
    · rename_i hxy
      refine List.pairwise_cons.mpr ⟨?_, hl⟩
      intro z hz
      rcases List.mem_cons.mp hz with rfl | hz
      · exact hxy
      · exact nameLe_trans hxy (hy z hz)
    · rename_i hxy
      have hyx : nameLe y x = true := by
        rcases nameLe_total x y with h | h
        · exact absurd h hxy
        · exact h
      refine List.pairwise_cons.mpr ⟨?_, ih hys⟩
      intro z hz
      rcases mem_insertSorted hz with rfl | hz
      · exact hyx
      · exact hy z hz

theorem pairwise_sortByName (l : List FSTree) :
    List.Pairwise (fun a b => nameLe a b = true) (sortByName l) := by
  induction l with
  | nil => simp [sortByName]
  | cons x xs ih => exact pairwise_insertSorted x ih

/-- Claim C5: in the order `build` renders any directory's entries
(`orderEntries`, applied to the root list and to every descended child
list), all files come before all directories, and within each partition the
names are in lexicographic byte/code-point order; in particular
`.hiddenfile` sorts before `file1.txt`. -/
theorem ordering_files_then_dirs_sorted :
    (∀ (ts : List FSTree), ∃ fs ds,
      orderEntries ts = fs ++ ds
      ∧ (∀ t ∈ fs, isFileE t = true)
      ∧ (∀ t ∈ ds, isFileE t = false)
      ∧ List.Pairwise (fun a b => nameLe a b = true) fs
      ∧ List.Pairwise (fun a b => nameLe a b = true) ds)
    ∧ nameLe (FSTree.file (".hiddenfile")) (FSTree.file ("file1.txt")) = true := by
  constructor
  · intro ts
    refine ⟨sortByName (ts.filter isFileE),
      sortByName (ts.filter (fun t => !isFileE t)), rfl, ?_, ?_,
      pairwise_sortByName _, pairwise_sortByName _⟩
    · intro t ht
      have := List.mem_filter.mp (mem_sortByName ht)
      exact this.2
    · intro t ht
      have := List.mem_filter.mp (mem_sortByName ht)
      simpa using this.2
  · decide

/-- Claim C6: an entry the Ignore Oracle excludes behaves asymmetrically by
kind — an excluded directory is still listed by name with the inline
`name/...` marker, sets truncation, and is never descended into (its
children do not occur in the result at all); an excluded file is dropped by
the filtering stage and never appears; and the file exclusion test is
independent of the static folder denylist. -/
theorem ignore_oracle_behavior :
    (∀ (opts : FolderOptions) (path pre n : String) (cs : Option (List FSTree))
        (rest : List FSTree) (st : TState),
      ¬st.remainingBudget = 0 →
      isExcludedDir opts (joinPath path n) n = true →
      processDir opts path pre (FSTree.dir n cs :: rest) st
        = (⟨LineKind.dir true, pre ++ connector rest.isEmpty ++ n ++ "/..."⟩
             :: (processDir opts path pre rest ⟨st.remainingBudget - 1, true⟩).1,
           (processDir opts path pre rest ⟨st.remainingBudget - 1, true⟩).2))
    ∧ (∀ (opts : FolderOptions) (path n : String) (ts : List FSTree),
      isExcludedFile opts (joinPath path n) = true →
      FSTree.file n ∉ filterEntries opts path ts)
    ∧ (∀ (opts : FolderOptions) (path : String) (fl1 fl2 : List String),
      isExcludedFile { opts with ignoredFolders := fl1 } path
        = isExcludedFile { opts with ignoredFolders := fl2 } path) := by
  refine ⟨processDir_excluded_cons, ?_, ?_⟩
  · intro opts path n ts h hmem
    have hf := (List.mem_filter.mp hmem).2
    simp only [keepEntry, h, Bool.not_true, Bool.and_false] at hf
    exact Bool.false_ne_true hf
  · intro opts path fl1 fl2
    rfl

/-- Claim C6 witness at concrete inputs: the denylisted `node_modules`
directory renders as `node_modules/...` without descent; a policy-excluded
file is dropped from the filtered list. -/
theorem ignore_oracle_behavior_witness :
    isExcludedDir ({} : FolderOptions)
        (joinPath ("/r") ("node_modules")) ("node_modules") = true
    ∧ processDir ({} : FolderOptions) ("/r") ("")
        [FSTree.dir ("node_modules") none] ⟨5, false⟩
      = ([⟨LineKind.dir true, "└───node_modules/..."⟩], ⟨4, true⟩)
    ∧ isExcludedFile ({ ignorePolicy := some (fun _ => true) } : FolderOptions)
        (joinPath ("/r") ("gone.txt")) = true
    ∧ FSTree.file ("gone.txt")
        ∉ filterEntries ({ ignorePolicy := some (fun _ => true) } : FolderOptions)
            ("/r") [FSTree.file ("gone.txt")] := by
  refine ⟨by decide, ?_, rfl, ?_⟩
  · have h := ignore_oracle_behavior.1 ({} : FolderOptions) ("/r") ("")
      ("node_modules") none [] ⟨5, false⟩ (by decide) (by decide)
    rw [h, processDir_nil]
    rfl
  · exact ignore_oracle_behavior.2.1 _ ("/r") ("gone.txt") _ rfl

/-- Claim C7: with `respectGitIgnore` off, the gitignore-based policy
excludes nothing — files are never policy-excluded, directory exclusion
reduces to the static denylist, and with no file pattern the filtering
stage keeps everything — while a denylisted directory still renders as
`name/...` and is not descended into. -/
theorem respectGitIgnore_bypass :
    (∀ (opts : FolderOptions) (path : String),
      opts.respectGitIgnore = false → isExcludedFile opts path = false)
    ∧ (∀ (opts : FolderOptions) (path n : String),
      opts.respectGitIgnore = false →
      isExcludedDir opts path n = opts.ignoredFolders.contains n)
    ∧ (∀ (opts : FolderOptions) (path : String) (ts : List FSTree),
      opts.respectGitIgnore = false → opts.fileIncludePattern = none →
      filterEntries opts path ts = ts)
    ∧ (∀ (opts : FolderOptions) (path pre n : String) (cs : Option (List FSTree))
        (rest : List FSTree) (st : TState),
      ¬st.remainingBudget = 0 →
      opts.respectGitIgnore = false →
      opts.ignoredFolders.contains n = true →
      processDir opts path pre (FSTree.dir n cs :: rest) st
        = (⟨LineKind.dir true, pre ++ connector rest.isEmpty ++ n ++ "/..."⟩
             :: (processDir opts path pre rest ⟨st.remainingBudget - 1, true⟩).1,
           (processDir opts path pre rest ⟨st.remainingBudget - 1, true⟩).2)) := by
  have hfile : ∀ (opts : FolderOptions) (path : String),
      opts.respectGitIgnore = false → isExcludedFile opts path = false := by
    intro opts path h
    simp [isExcludedFile, h]
  refine ⟨hfile, ?_, ?_, ?_⟩
  · intro opts path n h
    unfold isExcludedDir
    rw [h]
    simp
  · intro opts path ts h hp
    unfold filterEntries
    rw [List.filter_eq_self]
    intro t ht
    cases t with
    | file m => simp [keepEntry, hp, hfile opts _ h]
    | dir m cs => simp [keepEntry]
  · intro opts path pre n cs rest st hb h hc
    exact processDir_excluded_cons opts path pre n cs rest st hb
      (by unfold isExcludedDir; rw [hc]; simp)

/-- Claim C7 witness at concrete inputs: with `respectGitIgnore := false`
and an always-exclude policy, a gitignored file is kept and listed, while
`node_modules` still renders as `node_modules/...`. -/
theorem respectGitIgnore_bypass_witness :
    ({ respectGitIgnore := false, ignorePolicy := some (fun _ => true) }
        : FolderOptions).respectGitIgnore = false
    ∧ isExcludedFile
        ({ respectGitIgnore := false, ignorePolicy := some (fun _ => true) }
          : FolderOptions) ("/r/ignored.txt") = false
    ∧ filterEntries
        ({ respectGitIgnore := false, ignorePolicy := some (fun _ => true) }
          : FolderOptions) ("/r") [FSTree.file ("ignored.txt")]
      = [FSTree.file ("ignored.txt")]
    ∧ processDir
        ({ respectGitIgnore := false, ignorePolicy := some (fun _ => true) }
          : FolderOptions) ("/r") ("") [FSTree.dir ("node_modules") none] ⟨3, false⟩
      = ([⟨LineKind.dir true, "└───node_modules/..."⟩], ⟨2, true⟩) := by
  refine ⟨rfl, respectGitIgnore_bypass.1 _ _ rfl,
    respectGitIgnore_bypass.2.2.1 _ _ _ rfl rfl, ?_⟩
  have h := respectGitIgnore_bypass.2.2.2
    ({ respectGitIgnore := false, ignorePolicy := some (fun _ => true) }
      : FolderOptions)
    ("/r") ("") ("node_modules") none [] ⟨3, false⟩ (by decide) rfl (by decide)
  rw [h, processDir_nil]
  rfl

/-- Claim C8: a rendered, non-excluded directory with nothing to show —
because its listing failed (`NotReadable` on a descendant) or because its
child list is empty after filtering (truly empty, or all files dropped by
the pattern or the ignore policy) — renders as a leaf line with no
children, no marker and no error text, and this alone leaves the
truncation flag unchanged. -/
theorem empty_directory_renders_leaf :
    (∀ (opts : FolderOptions) (path pre n : String) (rest : List FSTree)
        (st : TState),
      ¬st.remainingBudget = 0 →
      isExcludedDir opts (joinPath path n) n = false →
      processDir opts path pre (FSTree.dir n none :: rest) st
        = (⟨LineKind.dir false, pre ++ connector rest.isEmpty ++ n ++ "/"⟩
             :: (processDir opts path pre rest
                   ⟨st.remainingBudget - 1, st.truncationOccurred⟩).1,
           (processDir opts path pre rest
              ⟨st.remainingBudget - 1, st.truncationOccurred⟩).2))
    ∧ (∀ (opts : FolderOptions) (path pre n : String) (csl rest : List FSTree)
        (st : TState),
      ¬st.remainingBudget = 0 →
      isExcludedDir opts (joinPath path n) n = false →
      filterEntries opts (joinPath path n) csl = [] →
      processDir opts path pre (FSTree.dir n (some csl) :: rest) st
        = (⟨LineKind.dir false, pre ++ connector rest.isEmpty ++ n ++ "/"⟩
             :: (processDir opts path pre rest
                   ⟨st.remainingBudget - 1, st.truncationOccurred⟩).1,
           (processDir opts path pre rest
              ⟨st.remainingBudget - 1, st.truncationOccurred⟩).2))
    ∧ (∀ (opts : FolderOptions) (path pre : String) (st : TState),
      processDir opts path pre [] st = ([], st)) :=
  ⟨processDir_notreadable_cons, processDir_empty_children_cons, processDir_nil⟩

/-- Claim C8 witness at concrete inputs: a directory whose only file is
dropped by the include pattern, and an unreadable directory, both render as
childless leaves without setting truncation. -/
theorem empty_directory_renders_leaf_witness :
    ¬(⟨7, false⟩ : TState).remainingBudget = 0
    ∧ isExcludedDir ({ fileIncludePattern := some (fun _ => false) }
        : FolderOptions) (joinPath ("/r") ("sub")) ("sub") = false
    ∧ filterEntries ({ fileIncludePattern := some (fun _ => false) }
        : FolderOptions) (joinPath ("/r") ("sub")) [FSTree.file ("a.md")] = []
    ∧ processDir ({ fileIncludePattern := some (fun _ => false) }
        : FolderOptions) ("/r") ("")
        [FSTree.dir ("sub") (some [FSTree.file ("a.md")])] ⟨7, false⟩
      = ([⟨LineKind.dir false, "└───sub/"⟩], ⟨6, false⟩)
    ∧ processDir ({} : FolderOptions) ("/r") ("")
        [FSTree.dir ("sub") none] ⟨7, false⟩
      = ([⟨LineKind.dir false, "└───sub/"⟩], ⟨6, false⟩) := by
  refine ⟨by decide, by decide, rfl, ?_, ?_⟩
  · have h := empty_directory_renders_leaf.2.1
      ({ fileIncludePattern := some (fun _ => false) } : FolderOptions)
      ("/r") ("") ("sub") [FSTree.file ("a.md")] [] ⟨7, false⟩
      (by decide) (by decide) rfl
    rw [h, processDir_nil]
    rfl
  · have h := empty_directory_renders_leaf.1 ({} : FolderOptions) ("/r") ("")
      ("sub") [] ⟨7, false⟩ (by decide) (by decide)
    rw [h, processDir_nil]
    rfl
